import Mathlib

/-!
Verification of the in-process serving layer of
`src/backend/servers/ultra_optimized_server.py`
(Intel Classroom Assistant, "ultra optimized" server).

The Python classes are shallowly embedded as Lean structures and pure
state-passing functions:

* `UltraAdvancedCache`   — the TTL/LRU content cache (spec: ContentCache),
* `UltraConversationState` — per-session conversation history (ConversationStore),
* `IntelligentBatchProcessor` — the priority batch queue (BatchScheduler),
* `AdvancedMemoryManager` — the memory monitor (MemoryMonitor),
* `ultra_chat` gate      — the serving facade's overload check.

Wall-clock times (`time.time()` floats) are modelled as integers passed
explicitly to each operation; memory percentages (floats from `psutil`)
are modelled as rationals.  Python dicts are modelled as association
lists in insertion order, which is the iteration order Python guarantees.
-/

set_option autoImplicit false

/-- Stored cache value.  `_compress_if_needed` wraps every value in a dict
`{"compressed": bool, "data": ...}`; string values longer than 1000
characters are gzip-compressed.  The gzip payload is modelled abstractly by
the `zipped` constructor retaining the original text (gzip round-trips
losslessly), mirroring `gzip.compress`/`gzip.decompress`. -/
inductive StoredValue where
  | plain (s : String)
  | zipped (s : String)
deriving DecidableEq, Repr

/-- One cache entry: the three Python side tables `cache[key]`,
`access_times[key]` and `hit_counts[key]` always hold the same key set,
so they are fused into one record per key. -/
structure CacheEntry where
  stored : StoredValue
  accessTime : Int
  hitCount : Nat
deriving DecidableEq, Repr

/-- The `stats` dict of `UltraAdvancedCache` (the `memory_usage` field is
platform-specific `sys.getsizeof` arithmetic and is not modelled). -/
structure CacheStats where
  hits : Nat
  misses : Nat
  evictions : Nat
deriving DecidableEq, Repr

/-- State of `UltraAdvancedCache` (constructor defaults:
`max_size=1000`, `ttl=CACHE_TIMEOUT=300`). -/
structure UltraAdvancedCache where
  entries : List (String × CacheEntry) := []
  maxSize : Nat := 1000
  ttl : Int := 300
  stats : CacheStats := ⟨0, 0, 0⟩
deriving DecidableEq, Repr

/-- Association-list lookup (Python `key in dict` / `dict[key]`). -/
def findEntry (k : String) : List (String × CacheEntry) → Option CacheEntry
  | [] => none
  | p :: t => if p.1 = k then some p.2 else findEntry k t

/-- `UltraAdvancedCache._compress_if_needed`. -/
def compressIfNeeded (v : String) : StoredValue :=
  if v.length > 1000 then .zipped v else .plain v

/-- `UltraAdvancedCache._decompress_if_needed`. -/
def decompressIfNeeded : StoredValue → String
  | .zipped s => s
  | .plain s => s

/-- `UltraAdvancedCache._remove_key`: delete a key from all three tables. -/
def removeKey (k : String) (l : List (String × CacheEntry)) :
    List (String × CacheEntry) :=
  l.filter (fun p => p.1 ≠ k)

/-- Python dict assignment `d[key] = v`: update in place if present
(keeping the key's position in iteration order), else append. -/
def dictSet (k : String) (e : CacheEntry) (l : List (String × CacheEntry)) :
    List (String × CacheEntry) :=
  if (findEntry k l).isSome then
    l.map (fun p => if p.1 = k then (k, e) else p)
  else
    l ++ [(k, e)]

/-- `UltraAdvancedCache.get(key)` at wall-clock time `now`:
returns the (decompressed) value or `none`, plus the updated cache. -/
def UltraAdvancedCache.get (c : UltraAdvancedCache) (now : Int) (k : String) :
    Option String × UltraAdvancedCache :=
  match findEntry k c.entries with
  | none =>
      (none, { c with stats := { c.stats with misses := c.stats.misses + 1 } })
  | some e =>
      if now - e.accessTime > c.ttl then
        (none, { c with
                  entries := removeKey k c.entries,
                  stats := { c.stats with misses := c.stats.misses + 1 } })
      else
        (some (decompressIfNeeded e.stored),
         { c with
            entries := dictSet k { e with accessTime := now,
                                          hitCount := e.hitCount + 1 } c.entries,
            stats := { c.stats with hits := c.stats.hits + 1 } })

/-- `UltraAdvancedCache._cleanup_expired` at time `now`. -/
def UltraAdvancedCache.cleanupExpired (c : UltraAdvancedCache) (now : Int) :
    UltraAdvancedCache :=
  let expired := c.entries.filter (fun p => now - p.2.accessTime > c.ttl)
  { c with
      entries := c.entries.filter (fun p => ¬ (now - p.2.accessTime > c.ttl)),
      stats := { c.stats with evictions := c.stats.evictions + expired.length } }

/-- Eviction comparison key of `_evict_lru`:
`min(..., key=lambda k: (access_times[k], hit_counts.get(k, 0)))`,
i.e. lexicographically by last-access time, then hit count. -/
def evictKeyLe (p q : String × CacheEntry) : Prop :=
  p.2.accessTime < q.2.accessTime ∨
    (p.2.accessTime = q.2.accessTime ∧ p.2.hitCount ≤ q.2.hitCount)

instance (p q : String × CacheEntry) : Decidable (evictKeyLe p q) := by
  unfold evictKeyLe; infer_instance

/-- Python `min(iterable, key=...)`: the first element attaining the minimal
key in iteration order. -/
def argminEntry : List (String × CacheEntry) → Option (String × CacheEntry)
  | [] => none
  | p :: t =>
      match argminEntry t with
      | none => some p
      | some q => if evictKeyLe p q then some p else some q

/-- `UltraAdvancedCache._evict_lru`. -/
def UltraAdvancedCache.evictLru (c : UltraAdvancedCache) : UltraAdvancedCache :=
  match argminEntry c.entries with
  | none => c
  | some (lruKey, _) =>
      { c with
          entries := removeKey lruKey c.entries,
          stats := { c.stats with evictions := c.stats.evictions + 1 } }

/-- `UltraAdvancedCache.set(key, value, ttl=None)` at time `now`.
Note: the source computes `effective_ttl = ttl or self.ttl` and then never
uses it — every expiry check reads the cache-wide `self.ttl`.  The dead
computation is kept here verbatim. -/
def UltraAdvancedCache.set (c : UltraAdvancedCache) (now : Int) (k v : String)
    (ttlArg : Option Int) : UltraAdvancedCache :=
  let _effective_ttl : Int :=
    match ttlArg with
    | some t => if t = 0 then c.ttl else t
    | none => c.ttl
  let c1 := c.cleanupExpired now
  let c2 :=
    if c1.entries.length ≥ c1.maxSize ∧ (findEntry k c1.entries).isNone then
      c1.evictLru
    else c1
  let oldHits := ((findEntry k c2.entries).map CacheEntry.hitCount).getD 0
  { c2 with
      entries := dictSet k ⟨compressIfNeeded v, now, oldHits⟩ c2.entries }

/-- `UltraAdvancedCache.clear` (the source bumps `evictions` by
`len(self.cache)` only after clearing, i.e. by zero). -/
def UltraAdvancedCache.clear (c : UltraAdvancedCache) : UltraAdvancedCache :=
  { c with entries := [] }

/-- One externally visible cache operation with its wall-clock time. -/
inductive CacheOp where
  | setOp (now : Int) (k v : String) (ttlArg : Option Int)
  | getOp (now : Int) (k : String)
deriving DecidableEq, Repr

/-- Apply one operation to the cache state. -/
def cacheStep (c : UltraAdvancedCache) : CacheOp → UltraAdvancedCache
  | .setOp now k v ttlArg => c.set now k v ttlArg
  | .getOp now k => (c.get now k).2

/-- Run a sequence of operations from a fresh cache. -/
def runCacheOps (ops : List CacheOp) : UltraAdvancedCache :=
  ops.foldl cacheStep {}

/-- The last value `set` for key `k` in an operation sequence. -/
def lastSetVal (ops : List CacheOp) (k : String) : Option String :=
  ops.foldl
    (fun acc op =>
      match op with
      | .setOp _ k2 v _ => if k2 = k then some v else acc
      | .getOp _ _ => acc)
    none

/-! ### Elementary lemmas about the cache tables -/

theorem findEntry_mem {k : String} {e : CacheEntry}
    {l : List (String × CacheEntry)} (h : findEntry k l = some e) :
    (k, e) ∈ l := by
  induction l with
  | nil => simp [findEntry] at h
  | cons p t ih =>
      by_cases hk : p.1 = k
      · simp [findEntry, hk] at h
        subst hk h
        exact List.mem_cons_self _ _
      · simp [findEntry, hk] at h
        exact List.mem_cons_of_mem _ (ih h)

theorem findEntry_eq_none_iff {k : String} {l : List (String × CacheEntry)} :
    findEntry k l = none ↔ ∀ p ∈ l, p.1 ≠ k := by
  induction l with
  | nil => simp [findEntry]
  | cons p t ih =>
      by_cases hk : p.1 = k
      · simp [findEntry, hk]
      · simp [findEntry, hk, ih]

theorem findEntry_removeKey_self (k : String) (l : List (String × CacheEntry)) :
    findEntry k (removeKey k l) = none := by
  induction l with
  | nil => rfl
  | cons p t ih =>
      by_cases hk : p.1 = k
      · simpa [removeKey, hk] using ih
      · simpa [removeKey, findEntry, hk] using ih

theorem findEntry_removeKey_of_ne {k k2 : String}
    (l : List (String × CacheEntry)) (h : k2 ≠ k) :
    findEntry k2 (removeKey k l) = findEntry k2 l := by
  induction l with
  | nil => rfl
  | cons p t ih =>
      by_cases hk : p.1 = k
      · have hp2 : ¬ p.1 = k2 := by rw [hk]; exact fun hh => h hh.symm
        rw [show removeKey k (p :: t) = removeKey k t by simp [removeKey, hk]]
        rw [ih]
        simp [findEntry, hp2]
      · rw [show removeKey k (p :: t) = p :: removeKey k t by simp [removeKey, hk]]
        by_cases hk2 : p.1 = k2
        · simp [findEntry, hk2]
        · simp [findEntry, hk2, ih]

theorem findEntry_append_of_ne {k2 k : String} {e : CacheEntry}
    (l : List (String × CacheEntry)) (h : k2 ≠ k) :
    findEntry k2 (l ++ [(k, e)]) = findEntry k2 l := by
  induction l with
  | nil => simp [findEntry, Ne.symm h]
  | cons p t ih =>
      by_cases hk2 : p.1 = k2
      · simp [findEntry, hk2]
      · simp [findEntry, hk2] at ih ⊢
        exact ih

theorem findEntry_append_self {k : String} {e : CacheEntry}
    {l : List (String × CacheEntry)} (h : findEntry k l = none) :
    findEntry k (l ++ [(k, e)]) = some e := by
  induction l with
  | nil => simp [findEntry]
  | cons p t ih =>
      by_cases hk : p.1 = k
      · simp [findEntry, hk] at h
      · simp [findEntry, hk] at h ⊢
        exact ih h

theorem decompress_compress (s : String) :
    decompressIfNeeded (compressIfNeeded s) = s := by
  unfold compressIfNeeded
  split <;> rfl

theorem mem_dictSet {p : String × CacheEntry} {k : String} {e : CacheEntry}
    {l : List (String × CacheEntry)} (h : p ∈ dictSet k e l) :
    p = (k, e) ∨ (p ∈ l ∧ p.1 ≠ k) := by
  unfold dictSet at h
  split at h
  · rcases List.mem_map.mp h with ⟨q, hq, hfq⟩
    by_cases hk : q.1 = k
    · left; simp [hk] at hfq; exact hfq.symm
    · right
      simp [hk] at hfq
      exact ⟨hfq ▸ hq, hfq ▸ hk⟩
  · rename_i hnone
    rcases List.mem_append.mp h with h1 | h1
    · right
      refine ⟨h1, ?_⟩
      have : findEntry k l = none := by
        cases hfe : findEntry k l with
        | none => rfl
        | some _ => simp [hfe] at hnone
      exact findEntry_eq_none_iff.mp this p h1
    · left; simpa using h1

theorem removeKey_length {k : String} {e : CacheEntry}
    {l : List (String × CacheEntry)}
    (hnd : (l.map Prod.fst).Nodup) (hmem : (k, e) ∈ l) :
    (removeKey k l).length + 1 = l.length := by
  induction l with
  | nil => cases hmem
  | cons p t ih =>
      rw [List.map_cons, List.nodup_cons] at hnd
      obtain ⟨hp1, hnd2⟩ := hnd
      rcases List.mem_cons.mp hmem with hp | ht
      · have hpk : p.1 = k := by rw [← hp]
        have htail : removeKey k t = t := by
          apply List.filter_eq_self.mpr
          intro q hq
          have hq1 : q.1 ≠ k := by
            intro hqk
            apply hp1
            rw [hpk, ← hqk]
            exact List.mem_map_of_mem Prod.fst hq
          simpa using hq1
        have hdrop : removeKey k (p :: t) = removeKey k t := by
          simp [removeKey, hpk]
        rw [hdrop, htail]
        simp
      · have hpk : p.1 ≠ k := by
          intro hpk
          apply hp1
          rw [hpk]
          exact List.mem_map_of_mem Prod.fst ht
        have hstep : removeKey k (p :: t) = p :: removeKey k t := by
          simp [removeKey, hpk]
        have ih2 := ih hnd2 ht
        rw [hstep]
        simp only [List.length_cons]
        omega

/-! ### The cache stores the compressed image of the last value set -/

/-- Every entry present in the table holds exactly the (compressed image of
the) value recorded for its key by the oracle `f`. -/
def CacheValsOK (l : List (String × CacheEntry)) (f : String → Option String) :
    Prop :=
  ∀ p ∈ l, ∃ v, f p.1 = some v ∧ p.2.stored = compressIfNeeded v

/-- How one operation updates the "last value set" oracle. -/
def updLastSet (f : String → Option String) : CacheOp → String → Option String
  | .setOp _ k2 v _ => fun q => if k2 = q then some v else f q
  | .getOp _ _ => f

theorem lastSetVal_foldl (ops : List CacheOp) (k : String) :
    lastSetVal ops k = (ops.foldl updLastSet (fun _ => none)) k := by
  suffices h : ∀ (ops : List CacheOp) (f : String → Option String)
      (acc : Option String), f k = acc →
      ops.foldl
        (fun acc op =>
          match op with
          | .setOp _ k2 v _ => if k2 = k then some v else acc
          | .getOp _ _ => acc) acc
        = (ops.foldl updLastSet f) k by
    unfold lastSetVal
    exact h ops (fun _ => none) none rfl
  intro ops
  induction ops with
  | nil => intro f acc h; simpa using h.symm
  | cons op rest ih =>
      intro f acc h
      simp only [List.foldl_cons]
      apply ih
      cases op with
      | setOp now k2 v ttlArg => simp [updLastSet, h]
      | getOp now k2 => simpa using h

theorem cleanupExpired_entries_subset {c : UltraAdvancedCache} {now : Int}
    {p : String × CacheEntry} (h : p ∈ (c.cleanupExpired now).entries) :
    p ∈ c.entries := by
  exact (List.mem_filter.mp h).1

theorem evictLru_entries_subset {c : UltraAdvancedCache}
    {p : String × CacheEntry} (h : p ∈ c.evictLru.entries) : p ∈ c.entries := by
  unfold UltraAdvancedCache.evictLru at h
  rcases harg : argminEntry c.entries with _ | m
  · rw [harg] at h; exact h
  · rw [harg] at h
    obtain ⟨mk, me⟩ := m
    exact (List.mem_filter.mp h).1

theorem cacheStep_valsOK (c : UltraAdvancedCache) (f : String → Option String)
    (op : CacheOp) (h : CacheValsOK c.entries f) :
    CacheValsOK (cacheStep c op).entries (updLastSet f op) := by
  cases op with
  | setOp now k v ttlArg =>
      intro p hp
      have hp2 : p ∈ dictSet k ⟨compressIfNeeded v, now, _⟩ _ := hp
      rcases mem_dictSet hp2 with rfl | ⟨hmem, hne⟩
      · exact ⟨v, by simp [updLastSet], rfl⟩
      · have hmem2 : p ∈ c.entries := by
          have h3 : p ∈ ((c.cleanupExpired now).evictLru).entries ∨
              p ∈ (c.cleanupExpired now).entries := by
            simp only [cacheStep, UltraAdvancedCache.set] at hp
            rcases mem_dictSet hp with rfl | ⟨hmem3, _⟩
            · exact absurd rfl hne
            · split at hmem3
              · exact Or.inl hmem3
              · exact Or.inr hmem3
          rcases h3 with h3 | h3
          · exact cleanupExpired_entries_subset (evictLru_entries_subset h3)
          · exact cleanupExpired_entries_subset h3
        obtain ⟨v0, hf0, hs0⟩ := h p hmem2
        refine ⟨v0, ?_, hs0⟩
        simp only [updLastSet]
        rw [if_neg (fun hh => hne hh.symm)]
        exact hf0
  | getOp now k =>
      intro p hp
      rcases hfe : findEntry k c.entries with _ | e
      · simp only [cacheStep, UltraAdvancedCache.get, hfe] at hp
        exact h p hp
      · simp only [cacheStep, UltraAdvancedCache.get, hfe] at hp
        split at hp
        · have hp2 : p ∈ removeKey k c.entries := hp
          simp only [removeKey] at hp2
          exact h p ((List.mem_filter.mp hp2).1)
        · rcases mem_dictSet hp with rfl | ⟨hmem, _⟩
          · obtain ⟨v0, hf0, hs0⟩ := h (k, e) (findEntry_mem hfe)
            exact ⟨v0, hf0, hs0⟩
          · exact h p hmem

theorem runCacheOps_valsOK (ops : List CacheOp) :
    CacheValsOK (runCacheOps ops).entries
      (ops.foldl updLastSet (fun _ => none)) := by
  suffices h : ∀ (ops : List CacheOp) (c : UltraAdvancedCache)
      (f : String → Option String),
      CacheValsOK c.entries f →
      CacheValsOK (ops.foldl cacheStep c).entries (ops.foldl updLastSet f) by
    exact h ops {} (fun _ => none) (by intro p hp; cases hp)
  intro ops
  induction ops with
  | nil => intro c f h; exact h
  | cons op rest ih =>
      intro c f h
      exact ih _ _ (cacheStep_valsOK c f op h)

/-! ### Claim C1 -/

/-- C1: for every sequence of `set`/`get` operations on the content cache,
a `get` of a present key whose last access lies more than `ttl` in the past
(`now - lastAccessAt > ttl`) returns a miss and purges the entry as a side
effect, while a `get` within the TTL window returns exactly the last value
`set` for that key, with transparent compression undone. -/
theorem C1_contentCache_ttl_roundtrip (ops : List CacheOp) (k : String)
    (now : Int) (e : CacheEntry)
    (he : findEntry k (runCacheOps ops).entries = some e) :
    (now - e.accessTime > (runCacheOps ops).ttl →
        ((runCacheOps ops).get now k).1 = none ∧
        findEntry k ((runCacheOps ops).get now k).2.entries = none) ∧
    (now - e.accessTime ≤ (runCacheOps ops).ttl →
        ((runCacheOps ops).get now k).1 = lastSetVal ops k ∧
        (lastSetVal ops k).isSome) := by
  obtain ⟨v, hf, hs⟩ := runCacheOps_valsOK ops (k, e) (findEntry_mem he)
  have hlast : lastSetVal ops k = some v := by
    rw [lastSetVal_foldl]; exact hf
  constructor
  · intro hexp
    constructor
    · simp only [UltraAdvancedCache.get, he]
      rw [if_pos hexp]
    · simp only [UltraAdvancedCache.get, he]
      rw [if_pos hexp]
      exact findEntry_removeKey_self k _
  · intro hle
    have hnot : ¬ (now - e.accessTime > (runCacheOps ops).ttl) :=
      not_lt.mpr hle
    constructor
    · have hs2 : e.stored = compressIfNeeded v := hs
      simp only [UltraAdvancedCache.get, he]
      rw [if_neg hnot, hlast]
      simp [hs2, decompress_compress]
    · rw [hlast]; rfl

/-- A concrete operation sequence exercising `C1_contentCache_ttl_roundtrip`. -/
def c1ops : List CacheOp := [CacheOp.setOp 0 "k" "v" none]

theorem C1_contentCache_ttl_roundtrip_witness :
    (((runCacheOps c1ops).get 400 "k").1 = none ∧
      findEntry "k" ((runCacheOps c1ops).get 400 "k").2.entries = none) ∧
    (((runCacheOps c1ops).get 100 "k").1 = lastSetVal c1ops "k" ∧
      (lastSetVal c1ops "k").isSome) := by
  constructor
  · exact (C1_contentCache_ttl_roundtrip c1ops "k" 400 ⟨.plain "v", 0, 0⟩
      (by decide)).1 (by decide)
  · exact (C1_contentCache_ttl_roundtrip c1ops "k" 100 ⟨.plain "v", 0, 0⟩
      (by decide)).2 (by decide)

/-! ### Claim C2 -/

theorem argminEntry_mem {l : List (String × CacheEntry)}
    {m : String × CacheEntry} (h : argminEntry l = some m) : m ∈ l := by
  induction l with
  | nil => cases h
  | cons p t ih =>
      unfold argminEntry at h
      rcases ht : argminEntry t with _ | q
      · simp only [ht] at h
        cases h
        exact List.mem_cons_self _ _
      · simp only [ht] at h
        by_cases hle : evictKeyLe p q
        · rw [if_pos hle] at h
          cases h
          exact List.mem_cons_self _ _
        · rw [if_neg hle] at h
          cases h
          exact List.mem_cons_of_mem _ (ih ht)

theorem argminEntry_isSome {l : List (String × CacheEntry)} (h : l ≠ []) :
    ∃ m, argminEntry l = some m := by
  cases l with
  | nil => exact absurd rfl h
  | cons p t =>
      rcases ht : argminEntry t with _ | q <;> simp only [argminEntry, ht]
      · exact ⟨p, rfl⟩
      · by_cases hle : evictKeyLe p q
        · exact ⟨p, by rw [if_pos hle]⟩
        · exact ⟨q, by rw [if_neg hle]⟩

/-- Eviction rule as claim C2 states it: the victim is the entry with the
oldest `lastAccessAt` among the entries with the lowest hit count, i.e. the
first minimum by `(hitCount, accessTime)`.  Stated from the specification's
words, for comparison with the source's `evictKeyLe`. -/
def claimEvictKeyLe (p q : String × CacheEntry) : Prop :=
  p.2.hitCount < q.2.hitCount ∨
    (p.2.hitCount = q.2.hitCount ∧ p.2.accessTime ≤ q.2.accessTime)

instance (p q : String × CacheEntry) : Decidable (claimEvictKeyLe p q) := by
  unfold claimEvictKeyLe; infer_instance

/-- The victim claim C2 designates (first minimum by the claim's key). -/
def claimEvictChoice :
    List (String × CacheEntry) → Option (String × CacheEntry)
  | [] => none
  | p :: t =>
      match claimEvictChoice t with
      | none => some p
      | some q => if claimEvictKeyLe p q then some p else some q

/-- A cache at capacity 2 whose two live entries order differently under the
two eviction keys: "a" has the oldest access time, "b" the lowest hit count. -/
def c2cache : UltraAdvancedCache :=
  { entries := [("a", ⟨.plain "x", 1, 5⟩), ("b", ⟨.plain "y", 2, 0⟩)],
    maxSize := 2 }

/-- C2 counterexample: at capacity, inserting the new key "c" at time 3 must,
per the claim, evict "b" (the oldest access among the lowest-hit-count
entries), but the code keeps "b" and evicts "a" (the overall least recently
used). -/
theorem C2_counterexample :
    (claimEvictChoice c2cache.entries).map Prod.fst = some "b" ∧
    (findEntry "b" (c2cache.set 3 "c" "v" none).entries).isSome = true ∧
    findEntry "a" (c2cache.set 3 "c" "v" none).entries = none := by
  decide

/-- C2 (amended): for every cache holding `maxEntries` live (unexpired)
entries with distinct keys, a `set` of a key not already present evicts
exactly one existing entry, and the evicted entry is the least recently used
one — the first minimum by `(lastAccessAt, hitCount)`, so the hit count only
breaks ties between equal access times (not the other way round, as the
claim stated). -/
theorem C2_contentCache_eviction (c : UltraAdvancedCache) (now : Int)
    (k v : String)
    (hnd : (c.entries.map Prod.fst).Nodup)
    (hlive : ∀ p ∈ c.entries, now - p.2.accessTime ≤ c.ttl)
    (hfull : c.entries.length = c.maxSize)
    (hpos : 0 < c.maxSize)
    (hnew : findEntry k c.entries = none) :
    ∃ m, argminEntry c.entries = some m ∧ m ∈ c.entries ∧
      (c.set now k v none).entries.length = c.maxSize ∧
      findEntry m.1 (c.set now k v none).entries = none ∧
      findEntry k (c.set now k v none).entries =
        some ⟨compressIfNeeded v, now, 0⟩ ∧
      (∀ k2, k2 ≠ m.1 → k2 ≠ k →
        findEntry k2 (c.set now k v none).entries = findEntry k2 c.entries) := by
  have hne : c.entries ≠ [] := by
    intro h0
    rw [h0] at hfull
    simp at hfull
    omega
  obtain ⟨m, hm⟩ := argminEntry_isSome hne
  obtain ⟨mk, me⟩ := m
  have hmmem : (mk, me) ∈ c.entries := argminEntry_mem hm
  have hmk : mk ≠ k := findEntry_eq_none_iff.mp hnew (mk, me) hmmem
  have hclean : (c.cleanupExpired now).entries = c.entries := by
    simp only [UltraAdvancedCache.cleanupExpired]
    apply List.filter_eq_self.mpr
    intro q hq
    have hq2 := hlive q hq
    simp only [decide_eq_true_eq, not_lt]
    exact hq2
  have hevict : ((c.cleanupExpired now).evictLru).entries =
      removeKey mk c.entries := by
    simp only [UltraAdvancedCache.evictLru, hclean, hm]
  have hfind_rm : findEntry k (removeKey mk c.entries) = none := by
    rw [findEntry_removeKey_of_ne _ (Ne.symm hmk)]
    exact hnew
  have hsetE : (c.set now k v none).entries =
      removeKey mk c.entries ++ [(k, ⟨compressIfNeeded v, now, 0⟩)] := by
    simp only [UltraAdvancedCache.set]
    rw [if_pos]
    · rw [hevict, hfind_rm]
      simp [dictSet, hfind_rm]
    · constructor
      · rw [hclean, hfull]
        exact le_refl _
      · rw [hclean, hnew]
        rfl
  refine ⟨(mk, me), hm, hmmem, ?_, ?_, ?_, ?_⟩
  · rw [hsetE]
    rw [List.length_append]
    have := removeKey_length hnd hmmem
    simp only [List.length_cons, List.length_nil]
    omega
  · rw [hsetE]
    rw [findEntry_append_of_ne _ hmk]
    exact findEntry_removeKey_self mk c.entries
  · rw [hsetE]
    exact findEntry_append_self hfind_rm
  · intro k2 hk2m hk2k
    rw [hsetE, findEntry_append_of_ne _ hk2k,
      findEntry_removeKey_of_ne _ hk2m]

theorem C2_contentCache_eviction_witness :
    ∃ m, argminEntry c2cache.entries = some m ∧ m ∈ c2cache.entries ∧
      (c2cache.set 3 "c" "v" none).entries.length = c2cache.maxSize ∧
      findEntry m.1 (c2cache.set 3 "c" "v" none).entries = none ∧
      findEntry "c" (c2cache.set 3 "c" "v" none).entries =
        some ⟨compressIfNeeded "v", 3, 0⟩ ∧
      (∀ k2, k2 ≠ m.1 → k2 ≠ "c" →
        findEntry k2 (c2cache.set 3 "c" "v" none).entries =
          findEntry k2 c2cache.entries) :=
  C2_contentCache_eviction c2cache 3 "c" "v" (by decide) (by decide)
    (by decide) (by decide) (by decide)

/-! ### Claim C10 -/

/-- C10: `set` accepts a per-call `ttl` argument, but the code computes
`effective_ttl = ttl or self.ttl` and never uses it: an entry stored at time
0 with per-call `ttl = 10` is still a hit at time 20 (more than 10 seconds
later), because `get` compares only against the cache-wide default TTL of
300.  This contradicts the claim (and the spec's `set(key, value,
ttl=default)` contract), while the dead `effective_ttl` assignment shows the
per-call TTL was intended to take effect: the code, not the claim, is at
fault. -/
theorem C10_perCallTtl_ignored :
    ((((UltraAdvancedCache.set {} 0 "k" "v" (some 10)).get 20 "k").1
        = some "v") ∧ (20 : Int) - 0 > 10) ∧
    (((UltraAdvancedCache.set {} 0 "k" "v" (some 10)).get 400 "k").1
        = none ∧ ¬ ((400 : Int) - 0 ≤ 10)) := by
  constructor
  · exact ⟨by decide, by decide⟩
  · exact ⟨by decide, by decide⟩

/-! ### UltraConversationState: one session's history and stats

`add_exchange` / `_intelligent_truncate` act on a single session's message
list `conversations[session_id]` and its `conversation_stats[session_id]`
record; a `ConvSession` models exactly that pair. -/

inductive MsgRole where
  | user
  | assistant
deriving DecidableEq, Repr

/-- One message dict `{"role": ..., "content": ..., "timestamp": ...}`. -/
structure ConvMessage where
  role : MsgRole
  content : String
  timestamp : Int
deriving DecidableEq, Repr

/-- One session: the message list plus its stats record
(`message_count`, `total_chars`). -/
structure ConvSession where
  messages : List ConvMessage := []
  messageCount : Nat := 0
  totalChars : Nat := 0
deriving DecidableEq, Repr

/-- The message budget `_intelligent_truncate` computes from the session
stats, stated exactly as the source does: base 20; 12 if the average chars
per message (`total_chars / max(message_count, 1)`, true division, modelled
as a rational) exceeds 500; 30 if it is below 100. -/
def computeMaxMessagesAvg (totalChars messageCount : Nat) : Nat :=
  let avgCharPerMessage : ℚ :=
    (totalChars : ℚ) / ((max messageCount 1 : Nat) : ℚ)
  if avgCharPerMessage > 500 then 12
  else if avgCharPerMessage < 100 then 30
  else 20

/-- The same budget with the division multiplied out over the naturals
(the denominator `max messageCount 1` is positive, so the comparisons are
equivalent — `computeMaxMessages_eq_avg` proves it).  This form reduces in
the kernel, so concrete runs can be evaluated by `decide`. -/
def computeMaxMessages (totalChars messageCount : Nat) : Nat :=
  if 500 * max messageCount 1 < totalChars then 12
  else if totalChars < 100 * max messageCount 1 then 30
  else 20

theorem computeMaxMessages_eq_avg (tc mc : Nat) :
    computeMaxMessagesAvg tc mc = computeMaxMessages tc mc := by
  simp only [computeMaxMessagesAvg, computeMaxMessages]
  have hd : (0 : ℚ) < ((max mc 1 : Nat) : ℚ) := by
    have h : 0 < max mc 1 := by omega
    exact_mod_cast h
  have h1 : ((tc : ℚ) / ((max mc 1 : Nat) : ℚ) > 500) ↔
      500 * max mc 1 < tc := by
    rw [gt_iff_lt, lt_div_iff₀ hd]
    constructor
    · intro h; exact_mod_cast h
    · intro h; exact_mod_cast h
  have h2 : ((tc : ℚ) / ((max mc 1 : Nat) : ℚ) < 100) ↔
      tc < 100 * max mc 1 := by
    rw [div_lt_iff₀ hd]
    constructor
    · intro h; exact_mod_cast h
    · intro h; exact_mod_cast h
  simp only [h1, h2]

/-- `UltraConversationState._intelligent_truncate` on one session:
if the message list exceeds the budget, keep the last `maxMessages - 2`
messages (`conversation[-keep_count:]`) and recompute the stats from the
kept messages. -/
def ConvSession.intelligentTruncate (s : ConvSession) : ConvSession :=
  let maxMessages := computeMaxMessages s.totalChars s.messageCount
  if s.messages.length > maxMessages then
    let keepCount := maxMessages - 2
    let kept := s.messages.drop (s.messages.length - keepCount)
    { messages := kept,
      totalChars := (kept.map (fun m => m.content.length)).sum,
      messageCount := kept.length }
  else s

/-- `UltraConversationState.add_exchange` on one session: append the
user/assistant pair, bump the stats, then truncate intelligently. -/
def ConvSession.addExchange (s : ConvSession) (userInput aiResponse : String)
    (now : Int) : ConvSession :=
  let s1 : ConvSession :=
    { messages := s.messages ++
        [⟨.user, userInput, now⟩, ⟨.assistant, aiResponse, now⟩],
      messageCount := s.messageCount + 2,
      totalChars := s.totalChars + userInput.length + aiResponse.length }
  s1.intelligentTruncate

/-- One call to `add_exchange` as external input. -/
structure Exchange where
  userInput : String
  aiResponse : String
  time : Int
deriving DecidableEq, Repr

/-- Run a sequence of `add_exchange` calls on a fresh session. -/
def runConv (exs : List Exchange) : ConvSession :=
  exs.foldl (fun s e => s.addExchange e.userInput e.aiResponse e.time) {}

theorem computeMaxMessages_cases (tc mc : Nat) :
    computeMaxMessages tc mc = 12 ∨ computeMaxMessages tc mc = 20 ∨
      computeMaxMessages tc mc = 30 := by
  simp only [computeMaxMessages]
  split
  · exact Or.inl rfl
  · split
    · exact Or.inr (Or.inr rfl)
    · exact Or.inr (Or.inl rfl)

theorem intelligentTruncate_length (s : ConvSession) :
    (s.intelligentTruncate).messages.length =
      if s.messages.length > computeMaxMessages s.totalChars s.messageCount
      then computeMaxMessages s.totalChars s.messageCount - 2
      else s.messages.length := by
  simp only [ConvSession.intelligentTruncate]
  by_cases hgt :
      s.messages.length > computeMaxMessages s.totalChars s.messageCount
  · rw [if_pos hgt, if_pos hgt]
    simp only [List.length_drop]
    rcases computeMaxMessages_cases s.totalChars s.messageCount with h | h | h <;>
      (rw [h] at hgt ⊢; omega)
  · rw [if_neg hgt, if_neg hgt]

theorem addExchange_length_le (s : ConvSession) (u a : String) (now : Int) :
    (s.addExchange u a now).messages.length ≤
      computeMaxMessages (s.totalChars + u.length + a.length)
        (s.messageCount + 2) := by
  simp only [ConvSession.addExchange]
  rw [intelligentTruncate_length]
  dsimp only
  simp only [List.length_append, List.length_cons, List.length_nil]
  rcases computeMaxMessages_cases (s.totalChars + u.length + a.length)
    (s.messageCount + 2) with hc | hc | hc <;>
    (rw [hc]; split <;> omega)

theorem addExchange_even (s : ConvSession) (u a : String) (now : Int)
    (h : Even s.messages.length) :
    Even (s.addExchange u a now).messages.length := by
  simp only [ConvSession.addExchange]
  rw [intelligentTruncate_length]
  dsimp only
  split
  · rcases computeMaxMessages_cases (s.totalChars + u.length + a.length)
      (s.messageCount + 2) with hc | hc | hc <;> (rw [hc]; decide)
  · simp only [List.length_append, List.length_cons, List.length_nil]
    obtain ⟨n, hn⟩ := h
    exact ⟨n + 1, by omega⟩

theorem addExchange_length_le_30 (s : ConvSession) (u a : String) (now : Int) :
    (s.addExchange u a now).messages.length ≤ 30 := by
  have h1 := addExchange_length_le s u a now
  rcases computeMaxMessages_cases (s.totalChars + u.length + a.length)
    (s.messageCount + 2) with hc | hc | hc <;> (rw [hc] at h1; omega)

theorem runConv_even (exs : List Exchange) :
    Even (runConv exs).messages.length := by
  suffices h : ∀ (exs : List Exchange) (s : ConvSession),
      Even s.messages.length →
      Even (List.foldl
        (fun s e => ConvSession.addExchange s e.userInput e.aiResponse e.time)
        s exs).messages.length by
    exact h exs {} ⟨0, rfl⟩
  intro exs
  induction exs with
  | nil => intro s h; exact h
  | cons e rest ih =>
      intro s h
      exact ih _ (addExchange_even s _ _ _ h)

theorem runConv_le_30 (exs : List Exchange) :
    (runConv exs).messages.length ≤ 30 := by
  suffices h : ∀ (exs : List Exchange) (s : ConvSession),
      s.messages.length ≤ 30 →
      (List.foldl
        (fun s e => ConvSession.addExchange s e.userInput e.aiResponse e.time)
        s exs).messages.length ≤ 30 by
    exact h exs {} (by decide)
  intro exs
  induction exs with
  | nil => intro s h; exact h
  | cons e rest ih =>
      intro s _
      exact ih _ (addExchange_length_le_30 s _ _ _)

/-! ### Claim C3 -/

/-- C3 (amended): after any sequence of `addExchange` calls, a session's
history is always pair-aligned (even length) and never exceeds 30 messages
(the largest bucket), and each `addExchange` leaves at most `maxMessages`
messages where `maxMessages` is the budget computed in that call from the
cumulative post-append, pre-truncation stats.  (The budget recomputed from
the post-truncation stats can drop below the kept length — see the
counterexample — so the bound holds for the budget as computed during the
call, not for the bucket of the stats a later observer sees.) -/
theorem C3_conversation_history_bounds (exs : List Exchange) :
    Even (runConv exs).messages.length ∧
    (runConv exs).messages.length ≤ 30 ∧
    ∀ (e : Exchange),
      (ConvSession.addExchange (runConv exs) e.userInput e.aiResponse
          e.time).messages.length ≤
        computeMaxMessages
          ((runConv exs).totalChars + e.userInput.length +
            e.aiResponse.length)
          ((runConv exs).messageCount + 2) :=
  ⟨runConv_even exs, runConv_le_30 exs,
    fun e => addExchange_length_le (runConv exs) e.userInput e.aiResponse
      e.time⟩

/-- A 600-character message body. -/
def longText : String := String.mk (List.replicate 600 'a')

/-- Two empty exchanges followed by nine verbose (600+600 chars) ones:
at the 11th add the cumulative average is 10800/22 which is less than 500, so the
budget is 20 and the last 18 messages are kept; the kept messages average
600 chars, so the recomputed bucket is 12 < 18. -/
def c3exchanges : List Exchange :=
  [⟨"", "", 0⟩, ⟨"", "", 1⟩,
   ⟨longText, longText, 2⟩, ⟨longText, longText, 3⟩,
   ⟨longText, longText, 4⟩, ⟨longText, longText, 5⟩,
   ⟨longText, longText, 6⟩, ⟨longText, longText, 7⟩,
   ⟨longText, longText, 8⟩, ⟨longText, longText, 9⟩,
   ⟨longText, longText, 10⟩]

set_option maxRecDepth 40000 in
/-- C3 counterexample: after this sequence the stored history has 18
messages, but the `maxMessages` computed for the session's current
average-chars-per-message bucket is 12, so `len(getHistory(id))` exceeds the
bucket budget the claim promises it never exceeds. -/
theorem C3_counterexample :
    (runConv c3exchanges).messages.length = 18 ∧
    computeMaxMessages (runConv c3exchanges).totalChars
      (runConv c3exchanges).messageCount = 12 ∧
    ¬ ((runConv c3exchanges).messages.length ≤
        computeMaxMessages (runConv c3exchanges).totalChars
          (runConv c3exchanges).messageCount) := by
  decide

/-! ### IntelligentBatchProcessor: the priority queue and its pop order -/

/-- The `RequestPriority` enum (`LOW=1 ... CRITICAL=4`). -/
inductive RequestPriority where
  | LOW
  | NORMAL
  | HIGH
  | CRITICAL
deriving DecidableEq, Repr

/-- `priority.value`. -/
def RequestPriority.val : RequestPriority → Nat
  | .LOW => 1
  | .NORMAL => 2
  | .HIGH => 3
  | .CRITICAL => 4

/-- One tuple in the `queue.PriorityQueue`: `submit_request` enqueues
`(5 - request.priority.value, request.timestamp, request)`; the request
object is represented by its id. -/
structure QEntry where
  pv : Nat
  ts : Int
  rid : Nat
deriving DecidableEq, Repr

/-- The tuple `submit_request` builds for a request. -/
def mkQEntry (p : RequestPriority) (ts : Int) (rid : Nat) : QEntry :=
  ⟨5 - p.val, ts, rid⟩

/-- `PriorityQueue` pop order: least `(priority_value, timestamp)`
lexicographically.  (Python compares the tuples elementwise; a tie on both
fields would fall through to comparing `BatchedRequest` objects and raise
`TypeError`, so full ties are resolved here arbitrarily, first in list
order.) -/
def qKeyLe (p q : QEntry) : Prop :=
  p.pv < q.pv ∨ (p.pv = q.pv ∧ p.ts ≤ q.ts)

instance (p q : QEntry) : Decidable (qKeyLe p q) := by
  unfold qKeyLe; infer_instance

theorem qKeyLe_total (p q : QEntry) : qKeyLe p q ∨ qKeyLe q p := by
  unfold qKeyLe
  rcases lt_trichotomy p.pv q.pv with h | h | h
  · exact Or.inl (Or.inl h)
  · rcases le_total p.ts q.ts with h2 | h2
    · exact Or.inl (Or.inr ⟨h, h2⟩)
    · exact Or.inr (Or.inr ⟨h.symm, h2⟩)
  · exact Or.inr (Or.inl h)

theorem qKeyLe_trans {p q r : QEntry} (h1 : qKeyLe p q) (h2 : qKeyLe q r) :
    qKeyLe p r := by
  unfold qKeyLe at *
  rcases h1 with h1 | ⟨h1, h1t⟩ <;> rcases h2 with h2 | ⟨h2, h2t⟩
  · exact Or.inl (h1.trans h2)
  · exact Or.inl (h2 ▸ h1)
  · exact Or.inl (h1 ▸ h2)
  · exact Or.inr ⟨h1.trans h2, h1t.trans h2t⟩

/-- Remove and return the minimum entry of the queue (`queue.get()`). -/
def popMinQ : List QEntry → Option (QEntry × List QEntry)
  | [] => none
  | x :: xs =>
      match popMinQ xs with
      | none => some (x, [])
      | some (m, rest) =>
          if qKeyLe x m then some (x, xs) else some (m, x :: rest)

/-- Pop repeatedly (with fuel) until the queue is empty. -/
def drainFuel : Nat → List QEntry → List QEntry
  | 0, _ => []
  | n + 1, l =>
      match popMinQ l with
      | none => []
      | some (m, rest) => m :: drainFuel n rest

/-- The order in which the collector loop pops queued requests for
dispatch (`_collect_batch` fills each batch in exactly this order and
`_process_role_group` preserves it within a batch). -/
def drainQueue (l : List QEntry) : List QEntry := drainFuel l.length l

theorem popMinQ_eq_none {l : List QEntry} (h : popMinQ l = none) : l = [] := by
  cases l with
  | nil => rfl
  | cons x xs =>
      unfold popMinQ at h
      rcases h2 : popMinQ xs with _ | p
      · simp [h2] at h
      · obtain ⟨m, rest⟩ := p
        simp only [h2] at h
        split at h <;> cases h

theorem popMinQ_perm {l : List QEntry} {m : QEntry} {rest : List QEntry}
    (h : popMinQ l = some (m, rest)) : l.Perm (m :: rest) := by
  induction l generalizing m rest with
  | nil => cases h
  | cons x xs ih =>
      unfold popMinQ at h
      rcases h2 : popMinQ xs with _ | p
      · simp only [h2] at h
        simp only [Option.some.injEq, Prod.mk.injEq] at h
        obtain ⟨rfl, rfl⟩ := h
        rw [popMinQ_eq_none h2]
      · obtain ⟨m0, rest0⟩ := p
        simp only [h2] at h
        by_cases hle : qKeyLe x m0
        · rw [if_pos hle] at h
          simp only [Option.some.injEq, Prod.mk.injEq] at h
          obtain ⟨rfl, rfl⟩ := h
          rfl
        · rw [if_neg hle] at h
          simp only [Option.some.injEq, Prod.mk.injEq] at h
          obtain ⟨rfl, rfl⟩ := h
          exact ((ih h2).cons x).trans (List.Perm.swap m0 x rest0)

theorem popMinQ_min {l : List QEntry} {m : QEntry} {rest : List QEntry}
    (h : popMinQ l = some (m, rest)) : ∀ y ∈ rest, qKeyLe m y := by
  induction l generalizing m rest with
  | nil => cases h
  | cons x xs ih =>
      unfold popMinQ at h
      rcases h2 : popMinQ xs with _ | p
      · simp only [h2] at h
        simp only [Option.some.injEq, Prod.mk.injEq] at h
        obtain ⟨rfl, rfl⟩ := h
        intro y hy
        cases hy
      · obtain ⟨m0, rest0⟩ := p
        simp only [h2] at h
        by_cases hle : qKeyLe x m0
        · rw [if_pos hle] at h
          simp only [Option.some.injEq, Prod.mk.injEq] at h
          obtain ⟨rfl, rfl⟩ := h
          intro y hy
          have hy2 : y ∈ m0 :: rest0 := (popMinQ_perm h2).mem_iff.mp hy
          rcases List.mem_cons.mp hy2 with rfl | hy3
          · exact hle
          · exact qKeyLe_trans hle (ih h2 y hy3)
        · rw [if_neg hle] at h
          simp only [Option.some.injEq, Prod.mk.injEq] at h
          obtain ⟨rfl, rfl⟩ := h
          intro y hy
          rcases List.mem_cons.mp hy with rfl | hy3
          · rcases qKeyLe_total m0 y with hq | hq
            · exact hq
            · exact absurd hq hle
          · exact ih h2 y hy3

theorem drainFuel_perm_sorted :
    ∀ (n : Nat) (l : List QEntry), l.length ≤ n →
      (drainFuel n l).Perm l ∧ (drainFuel n l).Pairwise qKeyLe := by
  intro n
  induction n with
  | zero =>
      intro l hl
      have hnil : l = [] := List.length_eq_zero.mp (Nat.le_zero.mp hl)
      subst hnil
      exact ⟨List.Perm.refl _, List.Pairwise.nil⟩
  | succ n ih =>
      intro l hl
      rcases hp : popMinQ l with _ | p
      · have hnil : l = [] := popMinQ_eq_none hp
        subst hnil
        simp only [drainFuel, hp]
        exact ⟨List.Perm.refl _, List.Pairwise.nil⟩
      · obtain ⟨m, rest⟩ := p
        have hperm := popMinQ_perm hp
        have hlen : rest.length ≤ n := by
          have h2 := hperm.length_eq
          simp only [List.length_cons] at h2
          omega
        obtain ⟨ihp, ihs⟩ := ih rest hlen
        constructor
        · simp only [drainFuel, hp]
          exact (ihp.cons m).trans hperm.symm
        · simp only [drainFuel, hp]
          refine List.Pairwise.cons ?_ ihs
          intro y hy
          exact popMinQ_min hp y (ihp.mem_iff.mp hy)

/-! ### Claim C4 -/

/-- C4 (amended): the batch scheduler pops queued requests for dispatch in
priority-queue order — nondecreasing `(5 - priority.value, submittedAt)`,
i.e. priority descending and then submission time ascending; the drain is a
permutation of the queue (each queued request is dispatched exactly once);
and a request of strictly higher priority is dispatched strictly before
every strictly-lower-priority request, regardless of submission times.
Among requests of equal priority the earlier-submitted dispatches first, so
a CRITICAL request queued after an earlier CRITICAL request is dispatched
later, not "no later" (see the counterexample). -/
theorem C4_dispatch_priority_order (l : List QEntry) :
    (drainQueue l).Perm l ∧
    (drainQueue l).Pairwise qKeyLe ∧
    ∀ (i j : Nat) (hi : i < (drainQueue l).length)
      (hj : j < (drainQueue l).length),
      ((drainQueue l).get ⟨i, hi⟩).pv < ((drainQueue l).get ⟨j, hj⟩).pv →
      i < j := by
  obtain ⟨hperm, hsorted⟩ := drainFuel_perm_sorted l.length l (le_refl _)
  rw [show drainFuel l.length l = drainQueue l from rfl] at hperm hsorted
  refine ⟨hperm, hsorted, ?_⟩
  intro i j hi hj hpv
  by_contra hij
  rcases Nat.lt_or_ge j i with hji | hji
  · have hq := List.pairwise_iff_get.mp hsorted ⟨j, hj⟩ ⟨i, hi⟩ hji
    unfold qKeyLe at hq
    rcases hq with hq | ⟨hq, _⟩
    · omega
    · omega
  · have hij2 : i = j := by omega
    subst hij2
    exact absurd hpv (lt_irrefl _)

/-- Two CRITICAL requests, submitted at times 0 and 1. -/
def c4queue : List QEntry :=
  [mkQEntry .CRITICAL 0 0, mkQEntry .CRITICAL 1 1]

/-- C4 counterexample: the CRITICAL request submitted at time 1 is queued
together with a same-priority (CRITICAL) request submitted earlier (time 0),
and it is dispatched strictly later (position 1 vs 0), refuting "a
CRITICAL-priority request already queued is dispatched no later than any
same-or-lower-priority request that was submitted earlier" in the
same-priority case. -/
theorem C4_counterexample :
    drainQueue c4queue = [mkQEntry .CRITICAL 0 0, mkQEntry .CRITICAL 1 1] ∧
    ¬ ((drainQueue c4queue).indexOf (mkQEntry .CRITICAL 1 1) ≤
        (drainQueue c4queue).indexOf (mkQEntry .CRITICAL 0 0)) := by
  decide

/-- A NORMAL request submitted at time 0 and a CRITICAL one at time 1. -/
def c4wqueue : List QEntry :=
  [mkQEntry .NORMAL 0 0, mkQEntry .CRITICAL 1 1]

theorem C4_dispatch_priority_order_witness :
    (drainQueue c4wqueue).Perm c4wqueue ∧ (0 : Nat) < 1 :=
  ⟨(C4_dispatch_priority_order c4wqueue).1,
    (C4_dispatch_priority_order c4wqueue).2.2 0 1 (by decide) (by decide)
      (by decide)⟩

/-! ### IntelligentBatchProcessor: batch dispatch and future resolution

`_process_single_request` in the source is a placeholder ("This will be
implemented to use the actual model"), so the external inference call is
taken as an abstract per-request outcome, and the caller-side cancellation
the overall design allows (a caller abandoning its future) is an abstract
per-request event; both are inputs of `BatchEnv`. -/

/-- Exceptions that can reach the batch layer: an exception raised by the
external inference call for one request, or `concurrent.futures`
`InvalidStateError` from setting an already-done or cancelled future. -/
inductive PyErr where
  | upstream (code : Nat)
  | invalidState
deriving DecidableEq, Repr

deriving instance DecidableEq for Except

/-- State of a `concurrent.futures.Future` used as a result slot. -/
inductive FutureState where
  | pending
  | cancelled
  | resolved (r : Except PyErr String)
deriving DecidableEq, Repr

/-- `Future.done()`: true once cancelled or resolved. -/
def FutureState.done : FutureState → Bool
  | .pending => false
  | _ => true

/-- One `BatchedRequest` as the dispatch loop sees it: the id of its future
and its `role` (the only request fields that influence dispatch). -/
structure BReq where
  idx : Nat
  role : String
deriving DecidableEq, Repr

/-- Modelled from the spec: the external `generate` call may fail per
request (`UpstreamFailure`), and a caller that times out may cancel /
abandon its future while the (seconds-long) inference call for it runs —
`outcome i` is the inference result for future `i`, and `cancelDuring i`
says whether future `i` is cancelled between the dispatch loop's
`cancelled()` check and its `set_result` call. -/
structure BatchEnv where
  outcome : Nat → Except Nat String
  cancelDuring : Nat → Bool

/-- The table of futures, with a count of successful result assignments
per future (instrumentation for the set-once property; the count is not
part of the program state). -/
structure FutureTable where
  state : Nat → FutureState
  setCount : Nat → Nat

/-- `Future.set_result` / `Future.set_exception`: succeeds only on a
pending future, otherwise raises `InvalidStateError`. -/
def setFuture (ft : FutureTable) (i : Nat) (r : Except PyErr String) :
    Except PyErr FutureTable :=
  match ft.state i with
  | .pending =>
      .ok { state := fun j => if j = i then .resolved r else ft.state j,
            setCount := fun j =>
              if j = i then ft.setCount j + 1 else ft.setCount j }
  | _ => .error .invalidState

/-- `Future.cancel()` taking effect while the request is being processed:
it cancels a pending future and is a no-op (returns `False`) on a future
that is already done. -/
def cancelFuture (ft : FutureTable) (i : Nat) : FutureTable :=
  match ft.state i with
  | .pending =>
      { ft with state := fun j => if j = i then .cancelled else ft.state j }
  | _ => ft

/-- One iteration of the loop in `_process_role_group`:
skip a request whose future is already cancelled; otherwise run the
inference call and `set_result`, and on any exception `set_exception`.
If `set_exception` itself raises (future cancelled meanwhile, or already
resolved), the exception escapes the loop: the second component carries
the escaping exception. -/
def stepReq (env : BatchEnv) (ft : FutureTable) (r : BReq) :
    FutureTable × Option PyErr :=
  if ft.state r.idx = .cancelled then (ft, none)
  else
    let ft1 := if env.cancelDuring r.idx then cancelFuture ft r.idx else ft
    match env.outcome r.idx with
    | .ok v =>
        match setFuture ft1 r.idx (.ok v) with
        | .ok ft2 => (ft2, none)
        | .error e =>
            match setFuture ft1 r.idx (.error e) with
            | .ok ft2 => (ft2, none)
            | .error e2 => (ft1, some e2)
    | .error c =>
        match setFuture ft1 r.idx (.error (.upstream c)) with
        | .ok ft2 => (ft2, none)
        | .error e2 => (ft1, some e2)

/-- `_process_role_group`: process the group's requests in order; an
escaping exception aborts the rest of the group. -/
def processRoleGroup (env : BatchEnv) :
    List BReq → FutureTable → FutureTable × Option PyErr
  | [], ft => (ft, none)
  | r :: rs, ft =>
      match stepReq env ft r with
      | (ft2, none) => processRoleGroup env rs ft2
      | (ft2, some e) => (ft2, some e)

/-- Insert a role into the ordered role list if new (Python dict keys keep
first-insertion order). -/
def insertRole (rs : List String) (ρ : String) : List String :=
  if ρ ∈ rs then rs else rs ++ [ρ]

/-- The roles of a batch in first-appearance order. -/
def rolesOf (batch : List BReq) : List String :=
  batch.foldl (fun rs r => insertRole rs r.role) []

/-- `role_groups` of `_process_batch`: for each role in first-appearance
order, the batch's requests with that role, in batch order. -/
def roleGroups (batch : List BReq) : List (String × List BReq) :=
  (rolesOf batch).map (fun ρ => (ρ, batch.filter (fun r => r.role = ρ)))

/-- The `for role, requests in role_groups.items()` loop: process the
groups in order; an exception escaping one group aborts the loop. -/
def processGroups (env : BatchEnv) :
    List (String × List BReq) → FutureTable → FutureTable × Option PyErr
  | [], ft => (ft, none)
  | g :: gs, ft =>
      match processRoleGroup env g.2 ft with
      | (ft2, none) => processGroups env gs ft2
      | (ft2, some e) => (ft2, some e)

/-- One request of the `except` handler of `_process_batch`:
`if not req.future.done(): req.future.set_exception(e)` (the future is
pending there, so this `set_exception` cannot itself raise). -/
def failStep (e : PyErr) (ft : FutureTable) (r : BReq) : FutureTable :=
  if (ft.state r.idx).done then ft
  else
    match setFuture ft r.idx (.error e) with
    | .ok ft2 => ft2
    | .error _ => ft

/-- The `except` handler of `_process_batch`: set the caught exception on
every future in the batch that is not yet done. -/
def failPending (e : PyErr) (batch : List BReq) (ft : FutureTable) :
    FutureTable :=
  batch.foldl (failStep e) ft

/-- `_process_batch`: group by role, dispatch each group, and on an
escaping exception mark every not-done future of the batch as failed.
(The `stats` bookkeeping after the group loop cannot raise and does not
touch futures; it is omitted.)  All assignment counts start at zero. -/
def processBatch (env : BatchEnv) (batch : List BReq)
    (init : Nat → FutureState) : FutureTable :=
  let ft0 : FutureTable := ⟨init, fun _ => 0⟩
  match processGroups env (roleGroups batch) ft0 with
  | (ft, none) => ft
  | (ft, some e) => failPending e batch ft

/-! ### Claim C7: set-once futures -/

/-- Set-once invariant of the future table: a pending future has never been
assigned, and no future has been assigned more than once. -/
def FTInv (ft : FutureTable) : Prop :=
  ∀ i, (ft.state i = .pending → ft.setCount i = 0) ∧ ft.setCount i ≤ 1

theorem setFuture_inv {ft : FutureTable} {i : Nat} {r : Except PyErr String}
    {ft2 : FutureTable} (hinv : FTInv ft) (h : setFuture ft i r = .ok ft2) :
    FTInv ft2 := by
  unfold setFuture at h
  rcases hs : ft.state i with _ | _ | r0 <;> simp only [hs] at h
  case cancelled => exact Except.noConfusion h
  case resolved => exact Except.noConfusion h
  case pending =>
    rw [Except.ok.injEq] at h
    subst h
    intro j
    by_cases hj : j = i
    · subst hj
      constructor
      · intro hp
        simp at hp
      · have hc0 : ft.setCount j = 0 := (hinv j).1 hs
        simp [hc0]
    · constructor
      · intro hp
        simp only [if_neg hj] at hp ⊢
        exact (hinv j).1 hp
      · simp only [if_neg hj]
        exact (hinv j).2

theorem cancelFuture_inv {ft : FutureTable} {i : Nat} (hinv : FTInv ft) :
    FTInv (cancelFuture ft i) := by
  unfold cancelFuture
  rcases hs : ft.state i with _ | _ | r0
  · intro j
    by_cases hj : j = i
    · subst hj
      exact ⟨fun hp => by simp at hp, (hinv j).2⟩
    · exact ⟨fun hp => (hinv j).1 (by simpa [hj] using hp), (hinv j).2⟩
  · exact hinv
  · exact hinv

theorem stepReq_inv (env : BatchEnv) (ft : FutureTable) (r : BReq)
    (hinv : FTInv ft) : FTInv (stepReq env ft r).1 := by
  unfold stepReq
  by_cases hcan : ft.state r.idx = .cancelled
  · rw [if_pos hcan]
    exact hinv
  · rw [if_neg hcan]
    dsimp only
    have hinv1 :
        FTInv (if env.cancelDuring r.idx then cancelFuture ft r.idx else ft) := by
      split
      · exact cancelFuture_inv hinv
      · exact hinv
    rcases ho : env.outcome r.idx with c | v <;> simp only [ho]
    · rcases hsf : setFuture
          (if env.cancelDuring r.idx then cancelFuture ft r.idx else ft)
          r.idx (.error (.upstream c)) with e | ft2 <;> simp only [hsf]
      · exact hinv1
      · exact setFuture_inv hinv1 hsf
    · rcases hsf : setFuture
          (if env.cancelDuring r.idx then cancelFuture ft r.idx else ft)
          r.idx (.ok v) with e | ft2 <;> simp only [hsf]
      · rcases hsf2 : setFuture
            (if env.cancelDuring r.idx then cancelFuture ft r.idx else ft)
            r.idx (.error e) with e2 | ft3 <;> simp only [hsf2]
        · exact hinv1
        · exact setFuture_inv hinv1 hsf2
      · exact setFuture_inv hinv1 hsf

theorem processRoleGroup_inv (env : BatchEnv) (reqs : List BReq) :
    ∀ ft, FTInv ft → FTInv (processRoleGroup env reqs ft).1 := by
  induction reqs with
  | nil => intro ft h; exact h
  | cons r rs ih =>
      intro ft h
      have h2 := stepReq_inv env ft r h
      unfold processRoleGroup
      rcases hstep : stepReq env ft r with ⟨ft2, oe⟩
      rw [hstep] at h2
      cases oe with
      | none =>
          simp only [hstep]
          exact ih ft2 h2
      | some e =>
          simp only [hstep]
          exact h2

theorem processGroups_inv (env : BatchEnv)
    (gs : List (String × List BReq)) :
    ∀ ft, FTInv ft → FTInv (processGroups env gs ft).1 := by
  induction gs with
  | nil => intro ft h; exact h
  | cons g rest ih =>
      intro ft h
      have h2 := processRoleGroup_inv env g.2 ft h
      unfold processGroups
      rcases hg : processRoleGroup env g.2 ft with ⟨ft2, oe⟩
      rw [hg] at h2
      cases oe with
      | none =>
          simp only [hg]
          exact ih ft2 h2
      | some e =>
          simp only [hg]
          exact h2

theorem failPending_inv (e : PyErr) (batch : List BReq) :
    ∀ ft, FTInv ft → FTInv (failPending e batch ft) := by
  induction batch with
  | nil => intro ft h; exact h
  | cons r rs ih =>
      intro ft h
      have h1 : FTInv (failStep e ft r) := by
        unfold failStep
        split
        · exact h
        · rcases hsf : setFuture ft r.idx (.error e) with e2 | ft2 <;>
            simp only [hsf]
          · exact h
          · exact setFuture_inv h hsf
      exact ih _ h1

/-- C7: no `BatchedRequest`'s future is ever resolved twice.  Across
role-group dispatch and the batch-level error handler, a result or
exception is successfully assigned to each future at most once, whatever
the initial future states (including futures whose caller has cancelled or
abandoned them), for every batch and every behaviour of the inference call:
the dispatch loop only assigns a pending future, the set-after-cancel race
raises instead of assigning, and the batch handler skips done futures.
(Batch collection assigns no futures at all: `_collect_batch` only pops and
discards cancelled entries.) -/
theorem C7_future_set_once (env : BatchEnv) (batch : List BReq)
    (init : Nat → FutureState) :
    ∀ i, (processBatch env batch init).setCount i ≤ 1 := by
  intro i
  have h0 : FTInv ⟨init, fun _ => 0⟩ := fun j => ⟨fun _ => rfl, Nat.zero_le 1⟩
  have h2 := processGroups_inv env (roleGroups batch) ⟨init, fun _ => 0⟩ h0
  unfold processBatch
  dsimp only
  rcases hpg : processGroups env (roleGroups batch) ⟨init, fun _ => 0⟩
    with ⟨ft, oe⟩
  rw [hpg] at h2
  cases oe with
  | none =>
      simp only [hpg]
      exact (h2 i).2
  | some e =>
      simp only [hpg]
      exact ((failPending_inv e batch ft h2) i).2

/-! ### Claim C5: failure isolation inside a batch -/

/-- The resolution a request's future receives from its own dispatch:
its inference result, or its own upstream failure. -/
def resolvedOutcome (env : BatchEnv) (i : Nat) : FutureState :=
  match env.outcome i with
  | .ok v => .resolved (.ok v)
  | .error c => .resolved (.error (.upstream c))

theorem stepReq_skip {env : BatchEnv} {ft : FutureTable} {r : BReq}
    (h : ft.state r.idx = .cancelled) : stepReq env ft r = (ft, none) := by
  unfold stepReq
  rw [if_pos h]

theorem stepReq_resolve {env : BatchEnv} {ft : FutureTable} {r : BReq}
    (hnc : env.cancelDuring r.idx = false)
    (hp : ft.state r.idx = .pending) :
    ∃ ft', stepReq env ft r = (ft', none) ∧
      ft'.state r.idx = resolvedOutcome env r.idx ∧
      ∀ j, j ≠ r.idx → ft'.state j = ft.state j := by
  unfold stepReq
  rw [if_neg (by rw [hp]; intro hh; cases hh)]
  dsimp only
  rw [hnc]
  simp only [if_neg Bool.false_ne_true]
  rcases ho : env.outcome r.idx with c | v <;> simp only [ho]
  · have hset : setFuture ft r.idx (.error (.upstream c)) =
        .ok { state := fun j =>
                if j = r.idx then .resolved (.error (.upstream c))
                else ft.state j,
              setCount := fun j =>
                if j = r.idx then ft.setCount j + 1 else ft.setCount j } := by
      unfold setFuture
      rw [hp]
    rw [hset]
    refine ⟨_, rfl, ?_, ?_⟩
    · simp [resolvedOutcome, ho]
    · intro j hj
      simp [hj]
  · have hset : setFuture ft r.idx (.ok v) =
        .ok { state := fun j =>
                if j = r.idx then .resolved (.ok v) else ft.state j,
              setCount := fun j =>
                if j = r.idx then ft.setCount j + 1 else ft.setCount j } := by
      unfold setFuture
      rw [hp]
    rw [hset]
    refine ⟨_, rfl, ?_, ?_⟩
    · simp [resolvedOutcome, ho]
    · intro j hj
      simp [hj]

theorem processRoleGroup_ok (env : BatchEnv) (reqs : List BReq) :
    ∀ ft : FutureTable, (reqs.map BReq.idx).Nodup →
    (∀ r ∈ reqs, env.cancelDuring r.idx = false) →
    (∀ r ∈ reqs, ft.state r.idx = .pending ∨ ft.state r.idx = .cancelled) →
    ∃ ft', processRoleGroup env reqs ft = (ft', none) ∧
      (∀ r ∈ reqs, ft.state r.idx = .pending →
        ft'.state r.idx = resolvedOutcome env r.idx) ∧
      (∀ j, j ∉ reqs.map BReq.idx → ft'.state j = ft.state j) := by
  induction reqs with
  | nil =>
      intro ft _ _ _
      exact ⟨ft, rfl, by simp, fun j _ => rfl⟩
  | cons r rs ih =>
      intro ft hnd hnc hst
      rw [List.map_cons, List.nodup_cons] at hnd
      obtain ⟨hidx, hnd2⟩ := hnd
      rcases hst r (List.mem_cons_self _ _) with hp | hc
      · obtain ⟨ft1, hstep, hres, hframe⟩ :=
          stepReq_resolve (hnc r (List.mem_cons_self _ _)) hp
        have hne : ∀ r2 ∈ rs, r2.idx ≠ r.idx := by
          intro r2 hr2 hh
          exact hidx (hh ▸ List.mem_map_of_mem BReq.idx hr2)
        have hst1 : ∀ r2 ∈ rs,
            ft1.state r2.idx = .pending ∨ ft1.state r2.idx = .cancelled := by
          intro r2 hr2
          rw [hframe r2.idx (hne r2 hr2)]
          exact hst r2 (List.mem_cons_of_mem _ hr2)
        obtain ⟨ft', hrun, hres2, hframe2⟩ :=
          ih ft1 hnd2 (fun r2 hr2 => hnc r2 (List.mem_cons_of_mem _ hr2)) hst1
        refine ⟨ft', ?_, ?_, ?_⟩
        · unfold processRoleGroup
          rw [hstep]
          exact hrun
        · intro r2 hr2 hp2
          rcases List.mem_cons.mp hr2 with rfl | hr3
          · rw [hframe2 r2.idx hidx]
            exact hres
          · rw [← hframe r2.idx (hne r2 hr3)] at hp2
            exact hres2 r2 hr3 hp2
        · intro j hj
          rw [List.map_cons, List.mem_cons] at hj
          push_neg at hj
          rw [hframe2 j hj.2, hframe j (fun hh => hj.1 (hh ▸ rfl))]
      · have hstep : stepReq env ft r = (ft, none) := stepReq_skip hc
        have hst1 : ∀ r2 ∈ rs,
            ft.state r2.idx = .pending ∨ ft.state r2.idx = .cancelled :=
          fun r2 hr2 => hst r2 (List.mem_cons_of_mem _ hr2)
        obtain ⟨ft', hrun, hres2, hframe2⟩ :=
          ih ft hnd2 (fun r2 hr2 => hnc r2 (List.mem_cons_of_mem _ hr2)) hst1
        refine ⟨ft', ?_, ?_, ?_⟩
        · unfold processRoleGroup
          rw [hstep]
          exact hrun
        · intro r2 hr2 hp2
          rcases List.mem_cons.mp hr2 with rfl | hr3
          · rw [hp2] at hc
            cases hc
          · exact hres2 r2 hr3 hp2
        · intro j hj
          rw [List.map_cons, List.mem_cons] at hj
          push_neg at hj
          exact hframe2 j hj.2

theorem mem_insertRole {rs : List String} {ρ ρ2 : String} :
    ρ2 ∈ insertRole rs ρ ↔ ρ2 ∈ rs ∨ ρ2 = ρ := by
  unfold insertRole
  split
  · rename_i hmem
    constructor
    · exact Or.inl
    · rintro (h | rfl)
      · exact h
      · exact hmem
  · simp

theorem insertRole_nodup {rs : List String} {ρ : String} (h : rs.Nodup) :
    (insertRole rs ρ).Nodup := by
  unfold insertRole
  split
  · exact h
  · rename_i hmem
    simp [List.nodup_append, h, hmem]

theorem rolesOf_nodup (batch : List BReq) : (rolesOf batch).Nodup := by
  suffices hgen : ∀ (batch : List BReq) (acc : List String), acc.Nodup →
      (batch.foldl (fun rs r => insertRole rs r.role) acc).Nodup by
    exact hgen batch [] List.nodup_nil
  intro batch
  induction batch with
  | nil => intro acc h; exact h
  | cons r rest ih => intro acc h; exact ih _ (insertRole_nodup h)

theorem mem_rolesOf {batch : List BReq} {r : BReq} (h : r ∈ batch) :
    r.role ∈ rolesOf batch := by
  suffices hgen : ∀ (batch : List BReq) (acc : List String) (ρ : String),
      (ρ ∈ acc ∨ ∃ r2 ∈ batch, r2.role = ρ) →
      ρ ∈ batch.foldl (fun rs r => insertRole rs r.role) acc by
    exact hgen batch [] r.role (Or.inr ⟨r, h, rfl⟩)
  intro batch
  induction batch with
  | nil =>
      intro acc ρ hin
      rcases hin with hin | ⟨r2, hr2, _⟩
      · exact hin
      · cases hr2
  | cons r2 rest ih =>
      intro acc ρ hin
      rcases hin with hin | ⟨r3, hr3, hρ⟩
      · exact ih _ _ (Or.inl (mem_insertRole.mpr (Or.inl hin)))
      · rcases List.mem_cons.mp hr3 with rfl | hr4
        · exact ih _ _ (Or.inl (mem_insertRole.mpr (Or.inr hρ.symm)))
        · exact ih _ _ (Or.inr ⟨r3, hr4, hρ⟩)

theorem processGroups_ok (env : BatchEnv) (batch : List BReq)
    (hinj : ∀ r1 ∈ batch, ∀ r2 ∈ batch, r1.idx = r2.idx → r1 = r2)
    (hnc : ∀ r ∈ batch, env.cancelDuring r.idx = false) :
    ∀ (gs : List (String × List BReq)) (ft : FutureTable),
    (gs.map Prod.fst).Nodup →
    (∀ g ∈ gs, ∀ r ∈ g.2, r ∈ batch ∧ r.role = g.1) →
    (∀ g ∈ gs, (g.2.map BReq.idx).Nodup) →
    (∀ g ∈ gs, ∀ r ∈ g.2,
      ft.state r.idx = .pending ∨ ft.state r.idx = .cancelled) →
    ∃ ft', processGroups env gs ft = (ft', none) ∧
      (∀ g ∈ gs, ∀ r ∈ g.2, ft.state r.idx = .pending →
        ft'.state r.idx = resolvedOutcome env r.idx) ∧
      (∀ j, (∀ g ∈ gs, ∀ r ∈ g.2, r.idx ≠ j) → ft'.state j = ft.state j) := by
  intro gs
  induction gs with
  | nil =>
      intro ft _ _ _ _
      exact ⟨ft, rfl, by simp, fun j _ => rfl⟩
  | cons g rest ih =>
      intro ft hndρ hsub hndg hst
      rw [List.map_cons, List.nodup_cons] at hndρ
      obtain ⟨hρ, hndρ2⟩ := hndρ
      have hdisj : ∀ g2 ∈ rest, ∀ r2 ∈ g2.2, ∀ r ∈ g.2, r2.idx ≠ r.idx := by
        intro g2 hg2 r2 hr2 r hr hh
        have h1 := hsub g (List.mem_cons_self _ _) r hr
        have h2 := hsub g2 (List.mem_cons_of_mem _ hg2) r2 hr2
        have heq : r2 = r := hinj r2 h2.1 r h1.1 hh
        apply hρ
        rw [← h1.2, ← heq, h2.2]
        exact List.mem_map_of_mem Prod.fst hg2
      obtain ⟨ft1, hrun1, hres1, hframe1⟩ :=
        processRoleGroup_ok env g.2 ft (hndg g (List.mem_cons_self _ _))
          (fun r hr => hnc r (hsub g (List.mem_cons_self _ _) r hr).1)
          (fun r hr => hst g (List.mem_cons_self _ _) r hr)
      have hnotin : ∀ g2 ∈ rest, ∀ r2 ∈ g2.2, r2.idx ∉ g.2.map BReq.idx := by
        intro g2 hg2 r2 hr2 hmem
        rcases List.mem_map.mp hmem with ⟨r, hr, hri⟩
        exact hdisj g2 hg2 r2 hr2 r hr hri.symm
      have hst1 : ∀ g2 ∈ rest, ∀ r2 ∈ g2.2,
          ft1.state r2.idx = .pending ∨ ft1.state r2.idx = .cancelled := by
        intro g2 hg2 r2 hr2
        rw [hframe1 r2.idx (hnotin g2 hg2 r2 hr2)]
        exact hst g2 (List.mem_cons_of_mem _ hg2) r2 hr2
      obtain ⟨ft', hrun2, hres2, hframe2⟩ :=
        ih ft1 hndρ2
          (fun g2 hg2 r2 hr2 => hsub g2 (List.mem_cons_of_mem _ hg2) r2 hr2)
          (fun g2 hg2 => hndg g2 (List.mem_cons_of_mem _ hg2)) hst1
      refine ⟨ft', ?_, ?_, ?_⟩
      · unfold processGroups
        rw [hrun1]
        exact hrun2
      · intro g2 hg2 r2 hr2 hp2
        rcases List.mem_cons.mp hg2 with rfl | hg3
        · have hkeep : ∀ g3 ∈ rest, ∀ r3 ∈ g3.2, r3.idx ≠ r2.idx :=
            fun g3 hg3 r3 hr3 => hdisj g3 hg3 r3 hr3 r2 hr2
          rw [hframe2 r2.idx hkeep]
          exact hres1 r2 hr2 hp2
        · have hpi : ft1.state r2.idx = .pending := by
            rw [hframe1 r2.idx (hnotin g2 hg3 r2 hr2)]
            exact hp2
          exact hres2 g2 hg3 r2 hr2 hpi
      · intro j hj
        have hj1 : ∀ r ∈ g.2, r.idx ≠ j :=
          fun r hr => hj g (List.mem_cons_self _ _) r hr
        have hj2 : ∀ g2 ∈ rest, ∀ r2 ∈ g2.2, r2.idx ≠ j :=
          fun g2 hg2 r2 hr2 => hj g2 (List.mem_cons_of_mem _ hg2) r2 hr2
        rw [hframe2 j hj2]
        apply hframe1
        intro hmem
        rcases List.mem_map.mp hmem with ⟨r, hr, hri⟩
        exact hj1 r hr hri

/-- C5 (amended): each request's future is resolved independently as long
as dispatch stays inside the role-group loop: for every batch of requests
with distinct futures, none of which is cancelled mid-processing, every
request whose future is pending at dispatch receives exactly its own
outcome — its inference result, or its own `UpstreamFailure` — regardless
of the failures of any sibling request, in its own role-group or another.
An exception *escaping* a role-group loop (a set on a future cancelled
mid-processing), however, is caught by the batch-level handler, which marks
as failed every pending future of the whole batch — that group's remaining
futures and those of all role-groups not yet dispatched (see the
counterexample), not only the failing group's. -/
theorem C5_batch_failure_isolation (env : BatchEnv) (batch : List BReq)
    (init : Nat → FutureState)
    (hnd : (batch.map BReq.idx).Nodup)
    (hnc : ∀ r ∈ batch, env.cancelDuring r.idx = false)
    (hinit : ∀ r ∈ batch, init r.idx = .pending ∨ init r.idx = .cancelled) :
    ∀ r ∈ batch, init r.idx = .pending →
      (processBatch env batch init).state r.idx =
        resolvedOutcome env r.idx := by
  intro r hr hp
  have hinj : ∀ r1 ∈ batch, ∀ r2 ∈ batch, r1.idx = r2.idx → r1 = r2 := by
    intro r1 h1 r2 h2 hh
    exact List.inj_on_of_nodup_map hnd h1 h2 hh
  obtain ⟨ft', hrun, hres, _⟩ :=
    processGroups_ok env batch hinj hnc (roleGroups batch)
      ⟨init, fun _ => 0⟩
      (by
        unfold roleGroups
        rw [List.map_map]
        have hcomp :
            (Prod.fst ∘ fun ρ => (ρ, batch.filter (fun r => r.role = ρ))) =
              id := by
          funext ρ
          rfl
        rw [hcomp, List.map_id]
        exact rolesOf_nodup batch)
      (by
        intro g hg r2 hr2
        unfold roleGroups at hg
        rcases List.mem_map.mp hg with ⟨ρ, hρ, rfl⟩
        refine ⟨(List.mem_filter.mp hr2).1, ?_⟩
        have h3 := (List.mem_filter.mp hr2).2
        simpa using h3)
      (by
        intro g hg
        unfold roleGroups at hg
        rcases List.mem_map.mp hg with ⟨ρ, hρ, rfl⟩
        exact List.Nodup.sublist
          (List.Sublist.map BReq.idx (List.filter_sublist _)) hnd)
      (by
        intro g hg r2 hr2
        unfold roleGroups at hg
        rcases List.mem_map.mp hg with ⟨ρ, hρ, rfl⟩
        exact hinit r2 (List.mem_filter.mp hr2).1)
  have hbatch : processBatch env batch init = ft' := by
    unfold processBatch
    dsimp only
    rw [hrun]
  rw [hbatch]
  have hgmem : (r.role, batch.filter (fun r2 => r2.role = r.role)) ∈
      roleGroups batch := by
    unfold roleGroups
    exact List.mem_map.mpr ⟨r.role, mem_rolesOf hr, rfl⟩
  have hrg : r ∈ batch.filter (fun r2 => r2.role = r.role) :=
    List.mem_filter.mpr ⟨hr, by simp⟩
  exact hres _ hgmem r hrg hp

/-- A two-request batch with two role groups. -/
def c5batch : List BReq := [⟨0, "student"⟩, ⟨1, "teacher"⟩]

/-- Both inference calls would succeed, but the caller of request 0 cancels
its future while it is being processed. -/
def c5env : BatchEnv :=
  { outcome := fun i => if i = 0 then .ok "answer0" else .ok "answer1",
    cancelDuring := fun i => i == 0 }

/-- The same batch with no cancellation race. -/
def c5envOk : BatchEnv :=
  { outcome := fun i => if i = 0 then .ok "answer0" else .ok "answer1",
    cancelDuring := fun _ => false }

/-- C5 counterexample: requests 0 and 1 sit in different role-groups.
Request 0's `set_result` raises (its future was cancelled mid-processing),
the exception escapes the "student" group, and the batch-level handler
marks the pending future of request 1 — a member of the *other* ("teacher")
role-group, whose own dispatch would have succeeded — as failed.  So an
exception raised while dispatching one role-group does not leave the
futures of other role-groups of the same batch unaffected. -/
theorem C5_counterexample :
    roleGroups c5batch =
      [("student", [⟨0, "student"⟩]), ("teacher", [⟨1, "teacher"⟩])] ∧
    (processBatch c5env c5batch (fun _ => .pending)).state 1 =
      .resolved (.error .invalidState) ∧
    (processBatch c5envOk c5batch (fun _ => .pending)).state 1 =
      .resolved (.ok "answer1") := by
  refine ⟨by decide, by decide, by decide⟩

/-- Request 0 suffers an upstream failure; request 1 succeeds. -/
def c5wenv : BatchEnv :=
  { outcome := fun i => if i = 0 then .error 7 else .ok "fine",
    cancelDuring := fun _ => false }

theorem C5_batch_failure_isolation_witness :
    (processBatch c5wenv c5batch (fun _ => .pending)).state 0 =
      resolvedOutcome c5wenv 0 ∧
    (processBatch c5wenv c5batch (fun _ => .pending)).state 1 =
      resolvedOutcome c5wenv 1 ∧
    resolvedOutcome c5wenv 0 = .resolved (.error (.upstream 7)) ∧
    resolvedOutcome c5wenv 1 = .resolved (.ok "fine") := by
  refine ⟨?_, ?_, by decide, by decide⟩
  · exact C5_batch_failure_isolation c5wenv c5batch (fun _ => .pending)
      (by decide) (by decide) (by decide) ⟨0, "student"⟩ (by decide) rfl
  · exact C5_batch_failure_isolation c5wenv c5batch (fun _ => .pending)
      (by decide) (by decide) (by decide) ⟨1, "teacher"⟩ (by decide) rfl

/-! ### UltraConversationState (whole store) and AdvancedMemoryManager -/

/-- Insert into a list sorted by descending `lastAccess`, after any element
with a greater-or-equal key (so that, folded from the left, the sort is
stable, matching Python's `sorted(..., key=lambda x: x[1], reverse=True)`). -/
def insertByAccessDesc (x : String × Int) :
    List (String × Int) → List (String × Int)
  | [] => [x]
  | y :: ys =>
      if y.2 ≥ x.2 then y :: insertByAccessDesc x ys else x :: y :: ys

/-- Stable sort by descending last-access time. -/
def sortByAccessDesc (l : List (String × Int)) : List (String × Int) :=
  l.foldl (fun acc x => insertByAccessDesc x acc) []

/-- The whole `UltraConversationState` store: per-session histories fused
with their stats (`conversations` + `conversation_stats`), plus
`last_access`; defaults `max_age_hours=24`, `max_conversations=1000`. -/
structure UltraConversationState where
  sessions : List (String × ConvSession) := []
  lastAccess : List (String × Int) := []
  maxAge : Int := 24 * 3600
  maxConversations : Nat := 1000

/-- `UltraConversationState.emergency_cleanup`: when more than 10 sessions
are held, keep only the 10 most recently accessed (in reachable states the
key sets of `sessions` and `lastAccess` coincide). -/
def UltraConversationState.emergencyCleanup (st : UltraConversationState) :
    UltraConversationState :=
  if st.sessions.length > 10 then
    let recent := (sortByAccessDesc st.lastAccess).take 10
    let keep := recent.map Prod.fst
    { st with
        sessions := st.sessions.filter (fun p => p.1 ∈ keep),
        lastAccess := st.lastAccess.filter (fun p => p.1 ∈ keep) }
  else st

/-- The server-wide mutable state the memory manager's cleanups touch:
the global `content_cache` and `conversation_state`. -/
structure ServerState where
  contentCache : UltraAdvancedCache := {}
  conversationState : UltraConversationState := {}

/-- `AdvancedMemoryManager._gentle_cleanup`: `gc.collect()` (no model
effect) and the two cleanup callbacks registered at module load —
`lambda: gc.collect()` and `lambda: content_cache.clear()`. -/
def gentleCleanup (s : ServerState) : ServerState :=
  { s with contentCache := s.contentCache.clear }

/-- `AdvancedMemoryManager._emergency_cleanup`: gentle cleanup, then
`content_cache.clear()` and `conversation_state.emergency_cleanup()`. -/
def emergencyCleanup (s : ServerState) : ServerState :=
  let s1 := gentleCleanup s
  { s1 with
      contentCache := s1.contentCache.clear,
      conversationState := s1.conversationState.emergencyCleanup }

/-- `AdvancedMemoryManager` state: the 60-second sample ring and the two
thresholds set in `__init__` (`warning=75`, `critical=85`). -/
structure AdvancedMemoryManager where
  memoryHistory : List (Int × ℚ) := []
  warningThreshold : ℚ := 75
  criticalThreshold : ℚ := 85

/-- `AdvancedMemoryManager._calculate_trend`: slope of the last 5 samples;
`> 0.5` increasing, `< -0.5` decreasing, else stable.  (When the first and
last of those samples carry the same timestamp the source divides by zero
and raises; rational division returns 0, i.e. "stable", there.) -/
def calculateTrend (history : List (Int × ℚ)) : String :=
  if history.length < 2 then "stable"
  else
    let recent := history.drop (history.length - 5)
    if recent.length < 2 then "stable"
    else
      let first := recent.headD (0, 0)
      let last := recent.getLastD (0, 0)
      let slope := (last.2 - first.2) / ((last.1 : ℚ) - (first.1 : ℚ))
      if slope > 1 / 2 then "increasing"
      else if slope < -(1 / 2) then "decreasing"
      else "stable"

/-- The dict returned by `monitor_memory`. -/
structure MonitorStats where
  currentPercent : ℚ
  availableMB : ℚ
  trend : String
  cleanupTriggered : Bool
deriving DecidableEq, Repr

/-- `AdvancedMemoryManager.monitor_memory` at time `now`, with the sampled
memory usage (`percent`, `availableMB`) as inputs: append the sample, trim
the ring to the last 60 seconds, build the stats, then run emergency
cleanup above the critical threshold or gentle cleanup above the warning
threshold. -/
def AdvancedMemoryManager.monitorMemory (mm : AdvancedMemoryManager)
    (now : Int) (percent availableMB : ℚ) (s : ServerState) :
    MonitorStats × AdvancedMemoryManager × ServerState :=
  let history1 := mm.memoryHistory ++ [(now, percent)]
  let cutoff := now - 60
  let history2 := history1.filter (fun tp => tp.1 > cutoff)
  let mm2 := { mm with memoryHistory := history2 }
  let stats0 : MonitorStats :=
    { currentPercent := percent, availableMB := availableMB,
      trend := calculateTrend history2, cleanupTriggered := false }
  if percent > mm.criticalThreshold then
    ({ stats0 with cleanupTriggered := true }, mm2, emergencyCleanup s)
  else if percent > mm.warningThreshold then
    ({ stats0 with cleanupTriggered := true }, mm2, gentleCleanup s)
  else
    (stats0, mm2, s)

/-! ### Claim C8 -/

/-- C8: when `monitor_memory` samples usage above the critical threshold of
85 (e.g. 86), it reports `cleanup_triggered = true` and performs the
emergency cleanup: afterwards the content cache holds no entries and the
conversation store is exactly the result of its `emergency_cleanup`. -/
theorem C8_critical_memory_emergency_cleanup (mm : AdvancedMemoryManager)
    (now : Int) (percent availableMB : ℚ) (s : ServerState)
    (hcrit : mm.criticalThreshold = 85) (hp : percent > 85) :
    (mm.monitorMemory now percent availableMB s).1.cleanupTriggered = true ∧
    (mm.monitorMemory now percent availableMB s).2.2.contentCache.entries
      = [] ∧
    (mm.monitorMemory now percent availableMB s).2.2.conversationState =
      s.conversationState.emergencyCleanup := by
  have hgt : percent > mm.criticalThreshold := by rw [hcrit]; exact hp
  unfold AdvancedMemoryManager.monitorMemory
  dsimp only
  rw [if_pos hgt]
  exact ⟨rfl, rfl, rfl⟩

/-- A server state with one cached entry and no conversations. -/
def c8server : ServerState :=
  { contentCache := { entries := [("k", ⟨.plain "v", 0, 0⟩)] } }

/-- The monitor run of the concrete C8 scenario (86% usage, default
manager, one cached entry). -/
def c8run : MonitorStats × AdvancedMemoryManager × ServerState :=
  AdvancedMemoryManager.monitorMemory {} 0 86 1000 c8server

theorem C8_critical_memory_emergency_cleanup_witness :
    c8run.1.cleanupTriggered = true ∧
    c8run.2.2.contentCache.entries = [] ∧
    c8run.2.2.conversationState =
      c8server.conversationState.emergencyCleanup :=
  C8_critical_memory_emergency_cleanup {} 0 86 1000 c8server rfl (by decide)

/-! ### The ultra_chat facade gate (claim C6) -/

/-- Outcome of one `/api/chat` request as far as the overload gate is
concerned. -/
inductive ChatOutcome where
  | badRequest
  | overloaded
  | answered (inferenceRan : Bool)
deriving DecidableEq, Repr

/-- Role validation in `ultra_chat`: anything but "student"/"teacher"
falls back to "student". -/
def normalizeRole (role : String) : String :=
  if role = "student" ∨ role = "teacher" then role else "student"

/-- The `ultra_chat` handler up to the inference call, with the already
stripped question text and the sampled memory usage as inputs: reject an
empty question (400) before anything else; otherwise validate the role,
run `memory_manager.monitor_memory()`, and fail fast with 503
"Server temporarily overloaded" only when `current_percent > 90` (a
hard-coded literal, not the monitor's critical threshold); otherwise the
request proceeds to context building and inference (abstracted to the
`answered` marker — those steps no longer consult the memory gate). -/
def ultraChat (question role : String) (now : Int)
    (percent availableMB : ℚ) (mm : AdvancedMemoryManager)
    (s : ServerState) : ChatOutcome × AdvancedMemoryManager × ServerState :=
  if question = "" then (.badRequest, mm, s)
  else
    let _userRole := normalizeRole role
    let res := mm.monitorMemory now percent availableMB s
    if res.1.currentPercent > 90 then (.overloaded, res.2.1, res.2.2)
    else (.answered true, res.2.1, res.2.2)

/-- C6 (amended): on every chat request with a non-empty question, the
facade runs the memory monitor (whose cleanups are applied to the server
state) before deciding, and it fails fast with "server overloaded", not
submitting the request for inference, exactly when the sampled usage
exceeds 90% — a hard-coded limit distinct from (and above) the monitor's
critical threshold of 85%: between 85% and 90% the monitor triggers
emergency cleanup, but the request still proceeds to inference. -/
theorem C6_overload_gate (question role : String) (now : Int)
    (percent availableMB : ℚ) (mm : AdvancedMemoryManager) (s : ServerState)
    (hq : question ≠ "") :
    (percent > 90 →
      (ultraChat question role now percent availableMB mm s).1 =
        .overloaded) ∧
    (¬ percent > 90 →
      (ultraChat question role now percent availableMB mm s).1 =
        .answered true) ∧
    (ultraChat question role now percent availableMB mm s).2 =
      (mm.monitorMemory now percent availableMB s).2 := by
  unfold ultraChat
  rw [if_neg hq]
  dsimp only
  have hcur : (mm.monitorMemory now percent availableMB s).1.currentPercent =
      percent := by
    unfold AdvancedMemoryManager.monitorMemory
    dsimp only
    split
    · rfl
    · split
      · rfl
      · rfl
  rw [hcur]
  refine ⟨?_, ?_, ?_⟩
  · intro h
    rw [if_pos h]
  · intro h
    rw [if_neg h]
  · split
    · rfl
    · rfl

/-- C6 counterexample: at 86% usage — above the monitor's critical
threshold of 85% — the facade does not fail fast: the request is answered,
with inference reached, even though the monitor just triggered an emergency
cleanup. -/
theorem C6_counterexample :
    (86 : ℚ) > 85 ∧
    ({} : AdvancedMemoryManager).criticalThreshold = 85 ∧
    c8run.1.cleanupTriggered = true ∧
    (ultraChat "hi" "student" 0 86 1000 {} c8server).1 =
      .answered true := by
  refine ⟨by decide, rfl, by decide, by decide⟩

theorem C6_overload_gate_witness :
    (ultraChat "hi" "student" 0 95 1000 {} c8server).1 = .overloaded ∧
    (ultraChat "hi" "student" 0 86 1000 {} c8server).1 = .answered true := by
  constructor
  · exact (C6_overload_gate "hi" "student" 0 95 1000 {} c8server
      (by decide)).1 (by decide)
  · exact (C6_overload_gate "hi" "student" 0 86 1000 {} c8server
      (by decide)).2.1 (by decide)

/-! ### Reference-level model of UltraConversationState for `get_history`

Python mutates shared objects in place, so for claim C9 the store is
modelled with explicit object identity: list objects and message dicts
live in heaps addressed by `Nat`, `conversations[sid]` holds the address
of the session's list object, and `get_history`'s `.copy()` allocates a
fresh list object holding the *same* message addresses. -/

/-- Generic association-list lookup (Python `d[k]` / `k in d`). -/
def alookup {α β : Type} [DecidableEq α] (k : α) : List (α × β) → Option β
  | [] => none
  | p :: t => if p.1 = k then some p.2 else alookup k t

/-- Generic Python dict assignment: update in place if present, keeping
the key's position, else append. -/
def aset {α β : Type} [DecidableEq α] (k : α) (v : β) (l : List (α × β)) :
    List (α × β) :=
  if (alookup k l).isSome then
    l.map (fun p => if p.1 = k then (k, v) else p)
  else l ++ [(k, v)]

/-- Stable ascending sort by last-access time (Python
`sorted(..., key=lambda x: x[1])`). -/
def insertByAccessAsc (x : String × Int) :
    List (String × Int) → List (String × Int)
  | [] => [x]
  | y :: ys =>
      if y.2 ≤ x.2 then y :: insertByAccessAsc x ys else x :: y :: ys

def sortByAccessAsc (l : List (String × Int)) : List (String × Int) :=
  l.foldl (fun acc x => insertByAccessAsc x acc) []

/-- The store with object identity: `sessions` maps a session id to the
address of its list object in `listHeap`; list objects hold addresses of
message dicts in `msgHeap`; `stats` holds `(message_count, total_chars)`
per session (the unused `created` timestamp is omitted). -/
structure RefConvState where
  sessions : List (String × Nat) := []
  listHeap : List (Nat × List Nat) := []
  msgHeap : List (Nat × ConvMessage) := []
  stats : List (String × Nat × Nat) := []
  lastAccess : List (String × Int) := []
  nextAddr : Nat := 0
  maxAge : Int := 24 * 3600
  maxConversations : Nat := 1000

/-- `UltraConversationState._cleanup_if_needed` at time `now`: return
immediately below 80% of `max_conversations` (`len < max * 0.8`, i.e.
`10 * len < 8 * max`); otherwise drop sessions idle beyond `max_age`, and
if still over the limit, also the oldest-by-last-access sessions. -/
def RefConvState.cleanupIfNeeded (st : RefConvState) (now : Int) :
    RefConvState :=
  if 10 * st.sessions.length < 8 * st.maxConversations then st
  else
    let toRemove :=
      (st.lastAccess.filter (fun p => now - p.2 > st.maxAge)).map Prod.fst
    let toRemove2 :=
      if st.sessions.length - toRemove.length > st.maxConversations then
        let additional :=
          st.sessions.length - toRemove.length - st.maxConversations
        toRemove ++ ((sortByAccessAsc st.lastAccess).take additional).map
          Prod.fst
      else toRemove
    { st with
        sessions := st.sessions.filter (fun p => p.1 ∉ toRemove2),
        stats := st.stats.filter (fun p => p.1 ∉ toRemove2),
        lastAccess := st.lastAccess.filter (fun p => p.1 ∉ toRemove2) }

/-- Create the empty session record (`conversations[sid] = []` allocates a
fresh empty list object, and a fresh stats record is written). -/
def RefConvState.createSession (st : RefConvState) (sid : String) :
    RefConvState :=
  match alookup sid st.sessions with
  | some _ => st
  | none =>
      let addr := st.nextAddr
      { st with
          sessions := aset sid addr st.sessions,
          listHeap := aset addr [] st.listHeap,
          stats := aset sid (0, 0) st.stats,
          nextAddr := st.nextAddr + 1 }

/-- `UltraConversationState.get_history` at time `now`: cleanup if needed,
touch `last_access`, create the session if absent, and return
`conversations[session_id].copy()` — a *fresh* list object (first
component: its address) holding the same message addresses. -/
def RefConvState.getHistory (st : RefConvState) (sid : String) (now : Int) :
    Nat × RefConvState :=
  let st1 := st.cleanupIfNeeded now
  let st2 := { st1 with lastAccess := aset sid now st1.lastAccess }
  let st3 := st2.createSession sid
  let la := (alookup sid st3.sessions).getD 0
  let elems := (alookup la st3.listHeap).getD []
  let copyAddr := st3.nextAddr
  (copyAddr,
   { st3 with
      listHeap := aset copyAddr elems st3.listHeap,
      nextAddr := st3.nextAddr + 1 })

/-- `UltraConversationState.add_exchange` at time `now`: create the session
if absent, allocate the two message dicts and append their addresses to the
session's list object in place, update `last_access` and the stats, then
`_intelligent_truncate`: when over budget, the slice
`conversation[-keep_count:]` allocates a fresh list object which is rebound
into `conversations[sid]`, and the stats are recomputed from the kept
messages. -/
def RefConvState.addExchange (st : RefConvState) (sid u a : String)
    (now : Int) : RefConvState :=
  let st1 := st.createSession sid
  let la := (alookup sid st1.sessions).getD 0
  let uAddr := st1.nextAddr
  let aAddr := st1.nextAddr + 1
  let st2 :=
    { st1 with
        msgHeap := st1.msgHeap ++
          [(uAddr, ({ role := .user, content := u, timestamp := now } :
              ConvMessage)),
           (aAddr, ({ role := .assistant, content := a, timestamp := now } :
              ConvMessage))],
        listHeap := aset la ((alookup la st1.listHeap).getD [] ++
          [uAddr, aAddr]) st1.listHeap,
        lastAccess := aset sid now st1.lastAccess,
        nextAddr := st1.nextAddr + 2 }
  let mc := ((alookup sid st2.stats).getD (0, 0)).1 + 2
  let tc := ((alookup sid st2.stats).getD (0, 0)).2 + u.length + a.length
  let st3 := { st2 with stats := aset sid (mc, tc) st2.stats }
  let elems := (alookup la st3.listHeap).getD []
  let maxMessages := computeMaxMessages tc mc
  if elems.length > maxMessages then
    let keepCount := maxMessages - 2
    let kept := elems.drop (elems.length - keepCount)
    let newChars := (kept.map (fun ad =>
      ((alookup ad st3.msgHeap).map (fun m => m.content.length)).getD 0)).sum
    let newAddr := st3.nextAddr
    { st3 with
        listHeap := aset newAddr kept st3.listHeap,
        sessions := aset sid newAddr st3.sessions,
        stats := aset sid (kept.length, newChars) st3.stats,
        nextAddr := st3.nextAddr + 1 }
  else st3

/-- A caller mutating a list object in place
(`history.append(...)`, `history[i] = ...`, `history.clear()`, ...). -/
def writeListCell (addr : Nat) (v : List Nat) (st : RefConvState) :
    RefConvState :=
  { st with listHeap := aset addr v st.listHeap }

/-- A caller mutating a message dict in place
(`history[i]["content"] = ...`). -/
def writeMsgContent (addr : Nat) (c : String) (st : RefConvState) :
    RefConvState :=
  { st with
      msgHeap := st.msgHeap.map
        (fun p => if p.1 = addr then (addr, { p.2 with content := c }) else p) }

/-- The store's live history for a session, as any later reader (a
subsequent `get_history` or `add_exchange`) observes it: the session's own
list object dereferenced through the message heap. -/
def observeHistory (st : RefConvState) (sid : String) :
    List (Option ConvMessage) :=
  match alookup sid st.sessions with
  | none => []
  | some la => ((alookup la st.listHeap).getD []).map
      (fun ad => alookup ad st.msgHeap)

theorem alookup_mem {α β : Type} [DecidableEq α] {k : α} {v : β}
    {l : List (α × β)} (h : alookup k l = some v) : (k, v) ∈ l := by
  induction l with
  | nil => cases h
  | cons p t ih =>
      by_cases hk : p.1 = k
      · simp [alookup, hk] at h
        subst hk h
        exact List.mem_cons_self _ _
      · simp [alookup, hk] at h
        exact List.mem_cons_of_mem _ (ih h)

theorem alookup_map_update_ne {α β : Type} [DecidableEq α] {k k2 : α}
    (v : β) (l : List (α × β)) (h : k ≠ k2) :
    alookup k (l.map (fun p => if p.1 = k2 then (k2, v) else p)) =
      alookup k l := by
  have hk2 : ¬ (k2 = k) := fun hh => h hh.symm
  induction l with
  | nil => rfl
  | cons p t ih =>
      rw [List.map_cons]
      by_cases hp : p.1 = k2
      · have hp2 : ¬ p.1 = k := by rw [hp]; exact hk2
        rw [if_pos hp]
        simp only [alookup]
        rw [if_neg hk2, if_neg hp2]
        exact ih
      · rw [if_neg hp]
        by_cases hpk : p.1 = k
        · simp only [alookup]
          rw [if_pos hpk, if_pos hpk]
        · simp only [alookup]
          rw [if_neg hpk, if_neg hpk]
          exact ih

theorem alookup_append_ne {α β : Type} [DecidableEq α] {k k2 : α}
    (v : β) (l : List (α × β)) (h : k ≠ k2) :
    alookup k (l ++ [(k2, v)]) = alookup k l := by
  have hk2 : ¬ (k2 = k) := fun hh => h hh.symm
  induction l with
  | nil =>
      simp only [List.nil_append, alookup]
      rw [if_neg hk2]
  | cons p t ih =>
      rw [List.cons_append]
      by_cases hpk : p.1 = k
      · simp only [alookup]
        rw [if_pos hpk, if_pos hpk]
      · simp only [alookup]
        rw [if_neg hpk, if_neg hpk]
        exact ih

theorem alookup_aset_ne {α β : Type} [DecidableEq α] {k k2 : α} (v : β)
    (l : List (α × β)) (h : k ≠ k2) :
    alookup k (aset k2 v l) = alookup k l := by
  unfold aset
  split
  · exact alookup_map_update_ne v l h
  · exact alookup_append_ne v l h

theorem mem_aset {α β : Type} [DecidableEq α] {p : α × β} {k : α} {v : β}
    {l : List (α × β)} (h : p ∈ aset k v l) : p = (k, v) ∨ p ∈ l := by
  unfold aset at h
  split at h
  · rcases List.mem_map.mp h with ⟨q, hq, hfq⟩
    by_cases hk : q.1 = k
    · left
      simp [hk] at hfq
      exact hfq.symm
    · right
      simp [hk] at hfq
      exact hfq ▸ hq
  · rcases List.mem_append.mp h with h1 | h1
    · exact Or.inr h1
    · left
      simpa using h1

theorem observe_writeList_fresh {st : RefConvState} {addr : Nat}
    (h : ∀ p ∈ st.sessions, p.2 ≠ addr) (v : List Nat) (sid2 : String) :
    observeHistory (writeListCell addr v st) sid2 = observeHistory st sid2 := by
  unfold observeHistory writeListCell
  dsimp only
  cases hla : alookup sid2 st.sessions with
  | none => rfl
  | some la2 =>
      have hne : la2 ≠ addr := h (sid2, la2) (alookup_mem hla)
      simp only [alookup_aset_ne _ _ hne]

theorem getHistory_returns_fresh_addr (st : RefConvState) (sid : String)
    (now : Int)
    (hwf : ∀ p ∈ st.sessions, p.2 < st.nextAddr)
    (hsmall : 10 * st.sessions.length < 8 * st.maxConversations) :
    ∀ p ∈ (st.getHistory sid now).2.sessions,
      p.2 ≠ (st.getHistory sid now).1 := by
  have hclean : st.cleanupIfNeeded now = st := by
    unfold RefConvState.cleanupIfNeeded
    rw [if_pos hsmall]
  unfold RefConvState.getHistory RefConvState.createSession
  rw [hclean]
  dsimp only
  cases hs : alookup sid st.sessions with
  | some la =>
      simp only [hs]
      intro p hp hh
      have := hwf p hp
      omega
  | none =>
      simp only [hs]
      intro p hp hh
      rcases mem_aset hp with rfl | hp2
      · simp at hh
      · have := hwf p hp2
        omega

/-! ### Claim C9 -/

/-- C9 (amended): `get_history` returns a *shallow* copy.  Mutations the
caller performs on the returned sequence itself (adding, removing or
replacing elements of the returned list object) leave the store's live
conversation state, as observed by any later reader, unchanged — the
returned list object is freshly allocated, distinct from every session's
own list object.  The messages inside it, however, are shared by reference
with the store, so in-place mutation of a returned message *is* visible in
the store (see the counterexample): the copy is defensive only at the list
level. -/
theorem C9_get_history_shallow_copy (st : RefConvState) (sid : String)
    (now : Int)
    (hwf : ∀ p ∈ st.sessions, p.2 < st.nextAddr)
    (hsmall : 10 * st.sessions.length < 8 * st.maxConversations) :
    ∀ (v : List Nat) (sid2 : String),
      observeHistory
        (writeListCell (st.getHistory sid now).1 v (st.getHistory sid now).2)
        sid2 =
      observeHistory (st.getHistory sid now).2 sid2 := by
  intro v sid2
  exact observe_writeList_fresh
    (getHistory_returns_fresh_addr st sid now hwf hsmall) v sid2

/-- One exchange stored for session "s". -/
def c9st1 : RefConvState := RefConvState.addExchange {} "s" "hello" "world" 0

/-- The result of `get_history("s")`: the copied list object's address and
the state after the call. -/
def c9hist : Nat × RefConvState := c9st1.getHistory "s" 1

/-- The caller mutates, in place, the first message reached through the
returned history (`history[0]["content"] = "HACKED"`). -/
def c9mutated : RefConvState :=
  writeMsgContent (((alookup c9hist.1 c9hist.2.listHeap).getD []).headD 0)
    "HACKED" c9hist.2

/-- C9 counterexample: the sequence returned by `get_history` shares its
message dicts with the store (`list.copy()` is shallow): after the caller
mutates the content of a message obtained from the returned value, the
store's live history — as a subsequent reader observes it — has changed
from "hello" to "HACKED".  So mutation of the messages contained in the
returned value does not leave the store unchanged. -/
theorem C9_counterexample :
    observeHistory c9hist.2 "s" =
      [some ⟨.user, "hello", 0⟩, some ⟨.assistant, "world", 0⟩] ∧
    observeHistory c9mutated "s" =
      [some ⟨.user, "HACKED", 0⟩, some ⟨.assistant, "world", 0⟩] ∧
    observeHistory c9mutated "s" ≠ observeHistory c9hist.2 "s" := by
  refine ⟨by decide, by decide, by decide⟩

theorem C9_get_history_shallow_copy_witness :
    observeHistory
      (writeListCell ((RefConvState.getHistory {} "s" 0).1) [42]
        ((RefConvState.getHistory {} "s" 0).2)) "s" =
    observeHistory ((RefConvState.getHistory {} "s" 0).2) "s" :=
  C9_get_history_shallow_copy {} "s" 0 (by intro p hp; cases hp)
    (by decide) [42] "s"
